import Mathlib

/-!
Verification of the event-backend Spatial Clustering Engine
(`ClusteringService.js`) and of the geocoding LRU cache
(`src/services/geocoding/LRUCache.ts`) against their natural-language
specification.

The JavaScript source is embedded shallowly:

* JavaScript numbers are modelled as exact real numbers extended with the
  special values `NaN`, `+Infinity`, `-Infinity` (`JSNum`).  Rounding of IEEE
  doubles is not modelled; all arithmetic on finite values is exact.
* JavaScript values that can appear in event fields (numbers, strings,
  booleans, `null`, `undefined`, other objects) are modelled by `JSVal`,
  with JavaScript truthiness.
* The fallible entry point `clusterEvents` returns `Except String _`;
  a thrown `Error` is `Except.error` with the error message.
* The non-deterministic `generateClusterId` is modelled by a caller-supplied
  generator `gen : Nat -> L`; the k-th call of `generateClusterId()` during
  one invocation returns `gen k`.
* `console.warn` diagnostics are modelled by `clusterWarnings`, the list of
  warnings emitted by the validation loop, each carrying the referenced
  event identifier (or `none` when the identifier was not referenced).
-/

namespace EventBackend

open Real

/-- A JavaScript number: a finite double (modelled as an exact real),
`NaN`, `Infinity` or `-Infinity`. -/
inductive JSNum where
  | fin (x : ℝ)
  | nan
  | posInf
  | negInf

/-- The JavaScript `<=` comparison on numbers: any comparison involving
`NaN` is false; infinities compare in the usual way. -/
def JSNum.jsLe : JSNum → JSNum → Prop
  | .fin x, .fin y => x ≤ y
  | .fin _, .posInf => True
  | .fin _, .negInf => False
  | .nan, _ => False
  | _, .nan => False
  | .posInf, .posInf => True
  | .posInf, _ => False
  | .negInf, _ => True

/-- A JavaScript value as it may appear in an event field. -/
inductive JSVal where
  | num (v : JSNum)
  | str (s : String)
  | boolV (b : Bool)
  | nullV
  | undef
  | obj

/-- JavaScript truthiness: `0`, `NaN`, the empty string, `false`, `null`
and `undefined` are falsy; every other value is truthy. -/
def JSVal.truthy : JSVal → Prop
  | .num (.fin x) => x ≠ 0
  | .num .nan => False
  | .num .posInf => True
  | .num .negInf => True
  | .str s => s ≠ ""
  | .boolV b => b = true
  | .nullV => False
  | .undef => False
  | .obj => True

/-- A raw coordinate object, before validation: the `latitude` and
`longitude` fields may hold arbitrary JavaScript values (a missing field
reads as `undefined`). -/
structure CoordRaw where
  latitude : JSVal
  longitude : JSVal

/-- `isValidCoordinate(coord)` from `ClusteringService.js`:
`if (!coord || typeof coord.latitude !== 'number' || typeof coord.longitude
!== 'number') return false;` then
`return coord.latitude >= -90 && coord.latitude <= 90 &&
coord.longitude >= -180 && coord.longitude <= 180;`.
An absent (falsy) coordinate object is `none`.  The JavaScript `>=` on
numbers is `jsLe` with the arguments swapped (both are false when `NaN`
is involved). -/
def isValidCoordinate : Option CoordRaw → Prop
  | none => False
  | some c =>
    match c.latitude, c.longitude with
    | .num a, .num b =>
        JSNum.jsLe (.fin (-90)) a ∧ JSNum.jsLe a (.fin 90) ∧
        JSNum.jsLe (.fin (-180)) b ∧ JSNum.jsLe b (.fin 180)
    | _, _ => False

/-- (C4) `isValidCoordinate` returns true exactly when the coordinate object
is present and both fields are finite numbers lying inclusively within
[-90, 90] resp. [-180, 180]; it returns false on absent coordinates,
non-numeric, `NaN`, infinite, or out-of-range fields. -/
theorem isValidCoordinate_iff (co : Option CoordRaw) :
    isValidCoordinate co ↔
      ∃ c x y, co = some c ∧ c.latitude = .num (.fin x) ∧
        c.longitude = .num (.fin y) ∧
        -90 ≤ x ∧ x ≤ 90 ∧ -180 ≤ y ∧ y ≤ 180 := by
  constructor
  · intro h
    match co with
    | none => exact absurd h (by simp [isValidCoordinate])
    | some c =>
      match hc1 : c.latitude, hc2 : c.longitude with
      | .num (.fin x), .num (.fin y) =>
        refine ⟨c, x, y, rfl, hc1, hc2, ?_, ?_, ?_, ?_⟩ <;>
          · have h' := h
            simp only [isValidCoordinate, hc1, hc2, JSNum.jsLe] at h'
            tauto
      | .num .nan, .num b =>
        simp [isValidCoordinate, hc1, hc2, JSNum.jsLe] at h
      | .num .posInf, .num b =>
        simp [isValidCoordinate, hc1, hc2, JSNum.jsLe] at h
      | .num .negInf, .num b =>
        simp [isValidCoordinate, hc1, hc2, JSNum.jsLe] at h
      | .num (.fin x), .num .nan =>
        simp [isValidCoordinate, hc1, hc2, JSNum.jsLe] at h
      | .num (.fin x), .num .posInf =>
        simp [isValidCoordinate, hc1, hc2, JSNum.jsLe] at h
      | .num (.fin x), .num .negInf =>
        simp [isValidCoordinate, hc1, hc2, JSNum.jsLe] at h
      | .num a, .str s => simp [isValidCoordinate, hc1, hc2] at h
      | .num a, .boolV b => simp [isValidCoordinate, hc1, hc2] at h
      | .num a, .nullV => simp [isValidCoordinate, hc1, hc2] at h
      | .num a, .undef => simp [isValidCoordinate, hc1, hc2] at h
      | .num a, .obj => simp [isValidCoordinate, hc1, hc2] at h
      | .str s, b => simp [isValidCoordinate, hc1] at h
      | .boolV b', b => simp [isValidCoordinate, hc1] at h
      | .nullV, b => simp [isValidCoordinate, hc1] at h
      | .undef, b => simp [isValidCoordinate, hc1] at h
      | .obj, b => simp [isValidCoordinate, hc1] at h
  · rintro ⟨c, x, y, rfl, h1, h2, hx1, hx2, hy1, hy2⟩
    simp [isValidCoordinate, h1, h2, JSNum.jsLe, hx1, hx2, hy1, hy2]

/-- A validated coordinate: both fields are finite numbers. -/
structure Coord where
  latitude : ℝ
  longitude : ℝ

/-- `Math.atan2(y, x)` on finite arguments (exact-real semantics; the
signed-zero distinction of IEEE, irrelevant here because the function is
only applied to non-negative square roots, is not modelled). -/
noncomputable def atan2 (y x : ℝ) : ℝ :=
  if 0 < x then Real.arctan (y / x)
  else if x < 0 then
    (if 0 ≤ y then Real.arctan (y / x) + π else Real.arctan (y / x) - π)
  else (if 0 < y then π / 2 else if y < 0 then -(π / 2) else 0)

/-- `calculateDistance(coord1, coord2)` from `ClusteringService.js`:
the haversine formula with Earth radius 6,371,000 m.  Note that the source
computes `Math.sqrt(1 - a)` without clamping `1 - a` to `[0, 1]`; in the
exact-real embedding `Real.sqrt` of a negative argument is `0`. -/
noncomputable def calculateDistance (coord1 coord2 : Coord) : ℝ :=
  let R : ℝ := 6371000
  let lat1 := coord1.latitude * π / 180
  let lat2 := coord2.latitude * π / 180
  let deltaLat := (coord2.latitude - coord1.latitude) * π / 180
  let deltaLon := (coord2.longitude - coord1.longitude) * π / 180
  let a :=
    Real.sin (deltaLat / 2) * Real.sin (deltaLat / 2) +
      Real.cos lat1 * Real.cos lat2 *
        (Real.sin (deltaLon / 2) * Real.sin (deltaLon / 2))
  let c := 2 * atan2 (Real.sqrt a) (Real.sqrt (1 - a))
  R * c

/-- `360 / earthCircumference` with `earthCircumference = 40075000`,
the `degPerMeter` constant of `createGridIndex`. -/
noncomputable def degPerMeter : ℝ := 360 / 40075000

/-- JavaScript multiplication of a number by a positive finite constant,
used for `radiusInMeters * degPerMeter` (overflow of doubles to `Infinity`
is not modelled: finite arithmetic is exact). -/
def JSNum.mulPos : JSNum → ℝ → JSNum
  | .fin x, c => .fin (x * c)
  | .nan, _ => .nan
  | .posInf, _ => .posInf
  | .negInf, _ => .negInf

/-- `Math.floor(x / d)` for a finite `x` and a JavaScript number `d`,
as used for grid rows and columns.  A `NaN` result is `none` (all `NaN`
cell keys collide, because the grid keys are the strings `row,col` and
`NaN` stringifies to the same text each time).  Division by `Infinity`
gives `0`; division of a finite nonzero value by `0` cannot occur (the
cell size is positive whenever the grid is built with a finite radius,
and Lean division by zero yields `0` anyway). -/
noncomputable def cellCoord (x : ℝ) : JSNum → Option ℤ
  | .fin d => some ⌊x / d⌋
  | .nan => none
  | .posInf => some 0
  | .negInf => some 0

/-- An event object: an `id` field, a `coordinates` field (absent or a raw
coordinate object), and an opaque payload standing for all other fields. -/
structure Event (P : Type) where
  id : JSVal
  coordinates : Option CoordRaw
  payload : P

/-- The test of the validation loop of `clusterEvents`:
`!event.coordinates || !isValidCoordinate(event.coordinates)` negated.
(`isValidCoordinate` already returns false on an absent object, so the
extra `!event.coordinates` test does not change the outcome.) -/
def eventValid {P : Type} (e : Event P) : Prop :=
  isValidCoordinate e.coordinates

/-- Extract the real coordinates of a validated event
(junk value `0` for fields that are not finite numbers; such events are
never looked at after validation). -/
def coordOf {P : Type} (e : Event P) : Coord :=
  match e.coordinates with
  | some c =>
    { latitude := match c.latitude with | .num (.fin x) => x | _ => 0
      longitude := match c.longitude with | .num (.fin y) => y | _ => 0 }
  | none => { latitude := 0, longitude := 0 }

open Classical in
/-- The `validEvents` list built by the validation loop of
`clusterEvents`: the input events whose coordinates validate, kept in
their original relative order. -/
noncomputable def validEvents {P : Type} (events : List (Event P)) :
    List (Event P) :=
  events.filter (fun e => decide (eventValid e))

open Classical in
/-- The `console.warn` diagnostics emitted by the validation loop of
`clusterEvents`: one per invalid event, in input order, carrying the
referenced identifier — the warning message interpolates the identifier
exactly when `event.id` is truthy (`event.id ? ... : ''`). -/
noncomputable def clusterWarnings {P : Type} (events : List (Event P)) :
    List (Option JSVal) :=
  (events.filter (fun e => decide (¬ eventValid e))).map
    (fun e => if e.id.truthy then some e.id else none)

/-! ## Union-Find (Disjoint Set), `class UnionFind` of `ClusteringService.js` -/

/-- The union-find state: `parent` and `rank` arrays. -/
structure UnionFind where
  parent : List Nat
  rank : List Nat

namespace UnionFind

/-- `new UnionFind(size)`: `parent = [0, 1, ..., size-1]`, `rank = 0`s. -/
def init (n : Nat) : UnionFind :=
  ⟨List.range n, List.replicate n 0⟩

/-- The number of elements. -/
def size (uf : UnionFind) : Nat := uf.parent.length

/-- `this.parent[x]` (out-of-range reads, which cannot occur for the
indices the service uses, default to `x` itself). -/
def p (uf : UnionFind) (x : Nat) : Nat := uf.parent.getD x x

/-- `this.rank[x]` (out-of-range reads default to `0`). -/
def rk (uf : UnionFind) (x : Nat) : Nat := uf.rank.getD x 0

/-- The source `find(x)` recurses on `this.parent[x]` without a
structural bound; the embedding uses explicit fuel, and
`UnionFind.find` below runs it with fuel `size`, which the invariant
theorems prove sufficient (`findAux_fuel_irrelevant`). -/
def findAux : Nat → UnionFind → Nat → UnionFind × Nat
  | 0, uf, x => (uf, x)
  | fuel + 1, uf, x =>
    if uf.p x = x then (uf, x)
    else
      let r := findAux fuel uf (uf.p x)
      (⟨r.1.parent.set x r.2, r.1.rank⟩, r.2)

/-- `find(x)` with path compression: returns the updated state and the
root. -/
def find (uf : UnionFind) (x : Nat) : UnionFind × Nat :=
  findAux uf.size uf x

/-- `union(x, y)`: two (mutating) `find`s, then union by rank. -/
def union (uf : UnionFind) (x y : Nat) : UnionFind :=
  let fx := uf.find x
  let fy := fx.1.find y
  let uf2 := fy.1
  let rootX := fx.2
  let rootY := fy.2
  if rootX = rootY then uf2
  else if uf2.rk rootX < uf2.rk rootY then
    ⟨uf2.parent.set rootX rootY, uf2.rank⟩
  else if uf2.rk rootY < uf2.rk rootX then
    ⟨uf2.parent.set rootY rootX, uf2.rank⟩
  else
    ⟨uf2.parent.set rootY rootX, uf2.rank.set rootX (uf2.rk rootX + 1)⟩

/-- `x` is a root: its parent pointer is a fixed point. -/
def isRoot (uf : UnionFind) (x : Nat) : Prop := uf.p x = x

/-- The root of `x`: following parent pointers `size` times reaches the
root whenever the forest invariant holds. -/
def rootOf (uf : UnionFind) (x : Nat) : Nat := uf.p^[uf.size] x

/-- The forest invariant: ranks array has the same length as the parent
array, parent pointers stay in range, and the rank strictly increases
along every proper parent edge (which forbids cycles). -/
def Inv (uf : UnionFind) : Prop :=
  uf.rank.length = uf.parent.length ∧
  (∀ x, x < uf.size → uf.p x < uf.size) ∧
  (∀ x, x < uf.size → uf.p x ≠ x → uf.rk x < uf.rk (uf.p x))

theorem Inv.init (n : Nat) : Inv (UnionFind.init n) := by
  refine ⟨by simp [UnionFind.init], ?_, ?_⟩ <;>
    · intro x hx
      simp [UnionFind.init, UnionFind.size] at hx ⊢
      simp [UnionFind.p, UnionFind.init, List.getD_eq_getElem?_getD,
        List.getElem?_range hx, hx]

theorem p_of_ge (uf : UnionFind) {x : Nat} (hx : uf.size ≤ x) :
    uf.p x = x := by
  simp [UnionFind.p, List.getD_eq_getElem?_getD,
    List.getElem?_eq_none (by simpa [UnionFind.size] using hx)]

/-- Ranks never decrease along chains of parent pointers. -/
theorem rk_le_rk_iterate (uf : UnionFind) (hInv : Inv uf) (x : Nat)
    (k : Nat) : uf.rk x ≤ uf.rk (uf.p^[k] x) := by
  induction k generalizing x with
  | zero => simp
  | succ k ih =>
    rw [Function.iterate_succ_apply]
    refine le_trans ?_ (ih (uf.p x))
    by_cases hx : x < uf.size
    · by_cases hpx : uf.p x = x
      · rw [hpx]
      · exact le_of_lt (hInv.2.2 x hx hpx)
    · rw [p_of_ge uf (not_lt.mp hx)]

/-- Once a chain reaches a root it stays there. -/
theorem iterate_of_isRoot (uf : UnionFind) {x : Nat}
    (hx : uf.isRoot x) (k : Nat) : uf.p^[k] x = x := by
  induction k with
  | zero => rfl
  | succ k ih => rw [Function.iterate_succ_apply', ih, hx]

/-- Chains stay in range. -/
theorem iterate_lt (uf : UnionFind) (hInv : Inv uf) {x : Nat}
    (hx : x < uf.size) (k : Nat) : uf.p^[k] x < uf.size := by
  induction k with
  | zero => exact hx
  | succ k ih => rw [Function.iterate_succ_apply']; exact hInv.2.1 _ ih

/-- Under the invariant, every parent chain reaches a root in fewer than
`size` steps: otherwise the ranks along the chain would be strictly
increasing, making `size + 1` chain nodes pairwise distinct inside
`{0, ..., size - 1}`. -/
theorem exists_root_reach (uf : UnionFind) (hInv : Inv uf) {x : Nat}
    (hx : x < uf.size) : ∃ k, k < uf.size ∧ uf.isRoot (uf.p^[k] x) := by
  by_contra h
  push_neg at h
  have hstep : ∀ k, k < uf.size →
      uf.rk (uf.p^[k] x) < uf.rk (uf.p^[k + 1] x) := by
    intro k hk
    rw [Function.iterate_succ_apply']
    exact hInv.2.2 _ (uf.iterate_lt hInv hx k) (h k hk)
  have hmono : ∀ j i, i < j → j ≤ uf.size →
      uf.rk (uf.p^[i] x) < uf.rk (uf.p^[j] x) := by
    intro j
    induction j with
    | zero => intro i hij _; omega
    | succ j ih =>
      intro i hij hj
      have hstepj := hstep j (by omega)
      rcases Nat.lt_succ_iff_lt_or_eq.mp hij with h' | h'
      · exact lt_trans (ih i h' (by omega)) hstepj
      · rw [h']; exact hstepj
  have hinj : Set.InjOn (fun k => uf.p^[k] x)
      (Finset.range (uf.size + 1) : Finset Nat) := by
    intro i hi j hj hij
    by_contra hne
    rcases Nat.lt_or_ge i j with h' | h'
    · have := hmono j i h' (by simpa using Nat.lt_succ_iff.mp (by simpa using hj))
      simp only [hij] at this
      omega
    · have h'' : j < i := by omega
      have := hmono i j h'' (by simpa using Nat.lt_succ_iff.mp (by simpa using hi))
      simp only [hij] at this
      omega
  have hmaps : ∀ k ∈ Finset.range (uf.size + 1),
      uf.p^[k] x ∈ Finset.range uf.size := by
    intro k _
    simpa using uf.iterate_lt hInv hx k
  have := Finset.card_le_card_of_injOn _ hmaps hinj
  simp at this

theorem isRoot_rootOf (uf : UnionFind) (hInv : Inv uf) {x : Nat}
    (hx : x < uf.size) : uf.isRoot (uf.rootOf x) := by
  obtain ⟨k, hk, hroot⟩ := uf.exists_root_reach hInv hx
  have : uf.rootOf x = uf.p^[k] x := by
    have : uf.size = (uf.size - k) + k := by omega
    rw [UnionFind.rootOf, this, Function.iterate_add_apply,
      uf.iterate_of_isRoot hroot]
  rw [this]
  exact hroot

theorem rootOf_lt (uf : UnionFind) (hInv : Inv uf) {x : Nat}
    (hx : x < uf.size) : uf.rootOf x < uf.size :=
  uf.iterate_lt hInv hx uf.size

theorem rootOf_of_isRoot (uf : UnionFind) {x : Nat}
    (hx : uf.isRoot x) : uf.rootOf x = x :=
  uf.iterate_of_isRoot hx uf.size

theorem rootOf_parent (uf : UnionFind) (hInv : Inv uf) {x : Nat}
    (hx : x < uf.size) : uf.rootOf (uf.p x) = uf.rootOf x := by
  have h1 : uf.rootOf (uf.p x) = uf.p^[uf.size + 1] x := by
    rw [UnionFind.rootOf, ← Function.iterate_succ_apply]
  rw [h1, Function.iterate_succ_apply']
  exact uf.isRoot_rootOf hInv hx

theorem rk_lt_rk_rootOf (uf : UnionFind) (hInv : Inv uf) {x : Nat}
    (hx : x < uf.size) (hpx : uf.p x ≠ x) : uf.rk x < uf.rk (uf.rootOf x) := by
  have h1 : uf.rk x < uf.rk (uf.p x) := hInv.2.2 x hx hpx
  have h2 : uf.rk (uf.p x) ≤ uf.rk (uf.p^[uf.size] (uf.p x)) :=
    uf.rk_le_rk_iterate hInv (uf.p x) uf.size
  have h3 : uf.p^[uf.size] (uf.p x) = uf.rootOf (uf.p x) := rfl
  rw [h3, uf.rootOf_parent hInv hx] at h2
  omega

theorem getD_set_nat (l : List Nat) (i v z : Nat) (hi : i < l.length) :
    (l.set i v).getD z 0 = if z = i then v else l.getD z 0 := by
  by_cases hz : z = i
  · subst hz
    simp [List.getD_eq_getElem?_getD, List.getElem?_set, hi]
  · simp [List.getD_eq_getElem?_getD, List.getElem?_set, Ne.symm hz, hz]

/-- Collapsing a two-class merge: mapping `loser` to `winner` identifies
exactly the two classes. -/
theorem if_collapse_iff (winner loser ra rb : Nat) (hwl : winner ≠ loser) :
    ((if ra = loser then winner else ra) =
      (if rb = loser then winner else rb)) ↔
      (ra = rb ∨ (ra = winner ∧ rb = loser) ∨ (ra = loser ∧ rb = winner)) := by
  by_cases hal : ra = loser
  · rw [if_pos hal]
    by_cases hbl : rb = loser
    · rw [if_pos hbl]
      simp [hal, hbl]
    · rw [if_neg hbl]
      constructor
      · intro h
        exact Or.inr (Or.inr ⟨hal, h.symm⟩)
      · rintro (h | ⟨h1, h2⟩ | ⟨h1, h2⟩)
        · exact absurd (by rw [← h]; exact hal) hbl
        · exact absurd h2 hbl
        · exact h2.symm
  · rw [if_neg hal]
    by_cases hbl : rb = loser
    · rw [if_pos hbl]
      constructor
      · intro h
        exact Or.inr (Or.inl ⟨h, hbl⟩)
      · rintro (h | ⟨h1, h2⟩ | ⟨h1, h2⟩)
        · exact absurd (by rw [h]; exact hbl) hal
        · exact h1
        · exact absurd h1 hal
    · rw [if_neg hbl]
      constructor
      · intro h
        exact Or.inl h
      · rintro (h | ⟨h1, h2⟩ | ⟨h1, h2⟩)
        · exact h
        · exact absurd h2 hbl
        · exact absurd h1 hal

theorem p_mk_set (parent rank' : List Nat) (i r z : Nat)
    (hi : i < parent.length) :
    UnionFind.p ⟨parent.set i r, rank'⟩ z =
      if z = i then r else UnionFind.p ⟨parent, rank'⟩ z := by
  by_cases hz : z = i
  · subst hz
    simp [UnionFind.p, List.getD_eq_getElem?_getD, List.getElem?_set,
      hi]
  · simp [UnionFind.p, List.getD_eq_getElem?_getD, List.getElem?_set,
      Ne.symm hz, hz]

theorem size_mk_set (parent rank' : List Nat) (i r : Nat) :
    UnionFind.size ⟨parent.set i r, rank'⟩ = parent.length := by
  simp [UnionFind.size]

theorem rk_mk (parent rank' : List Nat) (z : Nat) :
    UnionFind.rk ⟨parent, rank'⟩ z = rank'.getD z 0 := rfl

/-- Path compression step: pointing `x` directly at its root preserves
the invariant and does not change any root. -/
theorem compress_spec (uf : UnionFind) (hInv : Inv uf) {x : Nat}
    (hx : x < uf.size) :
    Inv ⟨uf.parent.set x (uf.rootOf x), uf.rank⟩ ∧
    (∀ y, y < uf.size →
      UnionFind.rootOf ⟨uf.parent.set x (uf.rootOf x), uf.rank⟩ y =
        uf.rootOf y) := by
  set r := uf.rootOf x with hr
  set uf' : UnionFind := ⟨uf.parent.set x r, uf.rank⟩ with huf'
  have hx' : x < uf.parent.length := hx
  have hsize : uf'.size = uf.size := by
    simp [huf', UnionFind.size]
  have hp' : ∀ z, uf'.p z = if z = x then r else uf.p z := by
    intro z
    have := p_mk_set uf.parent uf.rank x r z hx'
    simpa [huf'] using this
  have hrk' : ∀ z, uf'.rk z = uf.rk z := by
    intro z; simp [huf', UnionFind.rk]
  have hrlt : r < uf.size := uf.rootOf_lt hInv hx
  have hrroot : uf.isRoot r := uf.isRoot_rootOf hInv hx
  have hInv' : Inv uf' := by
    refine ⟨?_, ?_, ?_⟩
    · simp [huf', hInv.1]
    · intro z hz
      rw [hsize] at hz ⊢
      rw [hp' z]
      by_cases hzx : z = x
      · simpa [hzx] using hrlt
      · simpa [hzx] using hInv.2.1 z hz
    · intro z hz hpz
      rw [hsize] at hz
      rw [hp' z] at hpz ⊢
      by_cases hzx : z = x
      · rw [if_pos hzx] at hpz ⊢
        rw [hrk' z, hrk' r]
        have hpx : uf.p x ≠ x := by
          intro hroot
          apply hpz
          rw [hr, uf.rootOf_of_isRoot hroot, hzx]
        have hlt := uf.rk_lt_rk_rootOf hInv (hzx ▸ hz) hpx
        rw [← hr] at hlt
        rw [hzx]
        exact hlt
      · rw [if_neg hzx] at hpz ⊢
        rw [hrk' z, hrk' _]
        exact hInv.2.2 z hz hpz
  refine ⟨hInv', ?_⟩
  have key : ∀ k y, y < uf.size → uf.isRoot (uf.p^[k] y) →
      uf'.rootOf y = uf.rootOf y := by
    intro k
    induction k with
    | zero =>
      intro y hy hroot
      simp only [Function.iterate_zero_apply] at hroot
      have hyroot : uf.rootOf y = y := uf.rootOf_of_isRoot hroot
      have hy'root : uf'.isRoot y := by
        rw [UnionFind.isRoot, hp' y]
        by_cases hyx : y = x
        · rw [if_pos hyx, hr, hyx, uf.rootOf_of_isRoot (hyx ▸ hroot)]
        · rw [if_neg hyx]; exact hroot
      rw [uf'.rootOf_of_isRoot hy'root, hyroot]
    | succ k ih =>
      intro y hy hroot
      by_cases hpy : uf.p y = y
      · refine ih y hy ?_
        have : uf.p^[k] y = y := uf.iterate_of_isRoot hpy k
        rw [this]
        exact hpy
      · by_cases hyx : y = x
        · subst hyx
          have hrx : r ≠ y := by
            intro hcon
            have := uf.rk_lt_rk_rootOf hInv hy hpy
            rw [← hr] at this
            rw [hcon] at this
            omega
          have hy'step : uf'.p y = r := by rw [hp' y, if_pos rfl]
          have hr'root : uf'.isRoot r := by
            rw [UnionFind.isRoot, hp' r, if_neg (by exact hrx)]
            exact hrroot
          have : uf'.rootOf y = r := by
            rw [UnionFind.rootOf]
            have hpos : 0 < uf'.size := by rw [hsize]; omega
            obtain ⟨m, hm⟩ : ∃ m, uf'.size = m + 1 :=
              ⟨uf'.size - 1, by omega⟩
            rw [hm, Function.iterate_succ_apply, hy'step,
              uf'.iterate_of_isRoot hr'root]
          rw [this, ← hr]
        · have hstep : uf'.p y = uf.p y := by rw [hp' y, if_neg hyx]
          have h1 : uf'.rootOf y = uf'.rootOf (uf.p y) := by
            rw [← hstep]
            exact (uf'.rootOf_parent hInv' (by rwa [hsize])).symm
          have h2 : uf.isRoot (uf.p^[k] (uf.p y)) := by
            rwa [← Function.iterate_succ_apply]
          rw [h1, ih (uf.p y) (hInv.2.1 y hy) h2, uf.rootOf_parent hInv hy]
  intro y hy
  obtain ⟨k, _, hroot⟩ := uf.exists_root_reach hInv hy
  exact key k y hy hroot

/-- Linking lemma for `union`: attaching root `r2` under root `r1`
(with a possibly bumped rank at `r1`) preserves the invariant, and the
new root of every index is obtained from its old root by mapping `r2`
to `r1`. -/
theorem attach_spec (uf : UnionFind) (hInv : Inv uf) {r1 r2 : Nat}
    (h1 : r1 < uf.size) (h2 : r2 < uf.size)
    (hr1 : uf.isRoot r1) (hr2 : uf.isRoot r2) (hne : r1 ≠ r2)
    (rank' : List Nat) (hlen : rank'.length = uf.rank.length)
    (hsame : ∀ z, z ≠ r1 → rank'.getD z 0 = uf.rk z)
    (hge : uf.rk r1 ≤ rank'.getD r1 0)
    (hlt : uf.rk r2 < rank'.getD r1 0) :
    Inv ⟨uf.parent.set r2 r1, rank'⟩ ∧
    (∀ z, z < uf.size →
      UnionFind.rootOf ⟨uf.parent.set r2 r1, rank'⟩ z =
        if uf.rootOf z = r2 then r1 else uf.rootOf z) := by
  set uf' : UnionFind := ⟨uf.parent.set r2 r1, rank'⟩ with huf'
  have h2' : r2 < uf.parent.length := h2
  have hsize : uf'.size = uf.size := by simp [huf', UnionFind.size]
  have hp' : ∀ z, uf'.p z = if z = r2 then r1 else uf.p z := by
    intro z
    have := p_mk_set uf.parent rank' r2 r1 z h2'
    simpa [huf'] using this
  have hrk' : ∀ z, uf'.rk z = rank'.getD z 0 := by
    intro z; simp [huf', UnionFind.rk]
  have hInv' : Inv uf' := by
    refine ⟨?_, ?_, ?_⟩
    · simp [huf', hlen, hInv.1]
    · intro z hz
      rw [hsize] at hz ⊢
      rw [hp' z]
      by_cases hzr : z = r2
      · simpa [hzr] using h1
      · simpa [hzr] using hInv.2.1 z hz
    · intro z hz hpz
      rw [hsize] at hz
      rw [hp' z] at hpz ⊢
      by_cases hzr : z = r2
      · rw [if_pos hzr] at hpz ⊢
        rw [hrk' z, hrk' r1]
        rw [hsame z (by rw [hzr]; exact (Ne.symm hne))]
        rw [hzr]
        exact hlt
      · rw [if_neg hzr] at hpz ⊢
        have hz1 : z ≠ r1 := by
          intro hcon
          apply hpz
          rw [hcon]
          exact hr1
        rw [hrk' z, hsame z hz1, hrk' (uf.p z)]
        have hold := hInv.2.2 z hz hpz
        by_cases hpz1 : uf.p z = r1
        · rw [hpz1]
          rw [hpz1] at hold
          omega
        · rw [hsame _ hpz1]
          exact hold
  refine ⟨hInv', ?_⟩
  have hr1' : uf'.isRoot r1 := by
    rw [UnionFind.isRoot, hp' r1, if_neg hne]
    exact hr1
  have key : ∀ k z, z < uf.size → uf.isRoot (uf.p^[k] z) →
      uf'.rootOf z = if uf.rootOf z = r2 then r1 else uf.rootOf z := by
    intro k
    induction k with
    | zero =>
      intro z hz hroot
      simp only [Function.iterate_zero_apply] at hroot
      have hzroot : uf.rootOf z = z := uf.rootOf_of_isRoot hroot
      by_cases hzr : z = r2
      · have hstep : uf'.p z = r1 := by rw [hp' z, if_pos hzr]
        have : uf'.rootOf z = r1 := by
          rw [UnionFind.rootOf]
          obtain ⟨m, hm⟩ : ∃ m, uf'.size = m + 1 :=
            ⟨uf'.size - 1, by rw [hsize]; omega⟩
          rw [hm, Function.iterate_succ_apply, hstep,
            uf'.iterate_of_isRoot hr1']
        rw [this, hzroot, if_pos hzr]
      · have hz'root : uf'.isRoot z := by
          rw [UnionFind.isRoot, hp' z, if_neg hzr]
          exact hroot
        rw [uf'.rootOf_of_isRoot hz'root, hzroot, if_neg hzr]
    | succ k ih =>
      intro z hz hroot
      by_cases hpz : uf.p z = z
      · refine ih z hz ?_
        have : uf.p^[k] z = z := uf.iterate_of_isRoot hpz k
        rw [this]
        exact hpz
      · have hzr : z ≠ r2 := by
          intro hcon
          apply hpz
          rw [hcon]
          exact hr2
        have hstep : uf'.p z = uf.p z := by rw [hp' z, if_neg hzr]
        have h1' : uf'.rootOf z = uf'.rootOf (uf.p z) := by
          rw [← hstep]
          exact (uf'.rootOf_parent hInv' (by rwa [hsize])).symm
        have h2'' : uf.isRoot (uf.p^[k] (uf.p z)) := by
          rwa [← Function.iterate_succ_apply]
        rw [h1', ih (uf.p z) (hInv.2.1 z hz) h2'', uf.rootOf_parent hInv hz]
  intro z hz
  obtain ⟨k, _, hroot⟩ := uf.exists_root_reach hInv hz
  exact key k z hz hroot

theorem findAux_succ (fuel : Nat) (uf : UnionFind) (x : Nat) :
    findAux (fuel + 1) uf x =
      if uf.p x = x then (uf, x)
      else
        (⟨(findAux fuel uf (uf.p x)).1.parent.set x
            (findAux fuel uf (uf.p x)).2,
          (findAux fuel uf (uf.p x)).1.rank⟩,
          (findAux fuel uf (uf.p x)).2) := rfl

/-- Full specification of `findAux`: with enough fuel it returns the root
of `x`, leaves the rank array untouched, preserves the invariant and
changes no root. -/
theorem findAux_spec (uf : UnionFind) (hInv : Inv uf) :
    ∀ k x fuel, x < uf.size → uf.isRoot (uf.p^[k] x) → k < fuel →
      (findAux fuel uf x).2 = uf.rootOf x ∧
      (findAux fuel uf x).1.parent.length = uf.parent.length ∧
      (findAux fuel uf x).1.rank = uf.rank ∧
      Inv (findAux fuel uf x).1 ∧
      (∀ y, y < uf.size →
        (findAux fuel uf x).1.rootOf y = uf.rootOf y) := by
  intro k
  induction k with
  | zero =>
    intro x fuel hx hroot hfuel
    simp only [Function.iterate_zero_apply] at hroot
    obtain ⟨f, rfl⟩ : ∃ f, fuel = f + 1 := ⟨fuel - 1, by omega⟩
    have hroot' : uf.p x = x := hroot
    rw [findAux_succ, if_pos hroot']
    exact ⟨(uf.rootOf_of_isRoot hroot).symm, rfl, rfl, hInv,
      fun y _ => rfl⟩
  | succ k ih =>
    intro x fuel hx hroot hfuel
    obtain ⟨f, rfl⟩ : ∃ f, fuel = f + 1 := ⟨fuel - 1, by omega⟩
    by_cases hpx : uf.p x = x
    · rw [findAux_succ, if_pos hpx]
      exact ⟨(uf.rootOf_of_isRoot hpx).symm, rfl, rfl, hInv,
        fun y _ => rfl⟩
    · have hpxlt : uf.p x < uf.size := hInv.2.1 x hx
      have hroot' : uf.isRoot (uf.p^[k] (uf.p x)) := by
        rwa [← Function.iterate_succ_apply]
      obtain ⟨hsnd, hplen, hrank, hInv1, hpres⟩ :=
        ih (uf.p x) f hpxlt hroot' (by omega)
      rw [findAux_succ, if_neg hpx]
      set r := findAux f uf (uf.p x) with hrdef
      have hxsize1 : x < r.1.size := by
        rw [UnionFind.size, hplen]
        exact hx
      have hsndx : r.2 = r.1.rootOf x := by
        rw [hsnd, uf.rootOf_parent hInv hx, ← hpres x hx]
      obtain ⟨hInvC, hpresC⟩ := r.1.compress_spec hInv1 hxsize1
      rw [hsndx]
      refine ⟨?_, ?_, ?_, hInvC, ?_⟩
      · show r.1.rootOf x = uf.rootOf x
        rw [hpres x hx]
      · simpa using hplen
      · exact hrank
      · intro y hy
        have hy1 : y < r.1.size := by
          rw [UnionFind.size, hplen]; exact hy
        have := hpresC y hy1
        rw [this, hpres y hy]

/-- The recursion of `find` terminates: any fuel at least the chain
length gives the same result, so running with fuel `size` computes the
unbounded recursion of the source. -/
theorem findAux_fuel_irrelevant (uf : UnionFind) (hInv : Inv uf) :
    ∀ k x fuel, x < uf.size → uf.isRoot (uf.p^[k] x) → k < fuel →
      findAux fuel uf x = findAux (k + 1) uf x := by
  intro k
  induction k with
  | zero =>
    intro x fuel hx hroot hfuel
    simp only [Function.iterate_zero_apply] at hroot
    obtain ⟨f, rfl⟩ : ∃ f, fuel = f + 1 := ⟨fuel - 1, by omega⟩
    have hroot' : uf.p x = x := hroot
    rw [findAux_succ, if_pos hroot', findAux_succ, if_pos hroot']
  | succ k ih =>
    intro x fuel hx hroot hfuel
    obtain ⟨f, rfl⟩ : ∃ f, fuel = f + 1 := ⟨fuel - 1, by omega⟩
    by_cases hpx : uf.p x = x
    · rw [findAux_succ, if_pos hpx, findAux_succ, if_pos hpx]
    · have hpxlt : uf.p x < uf.size := hInv.2.1 x hx
      have hroot' : uf.isRoot (uf.p^[k] (uf.p x)) := by
        rwa [← Function.iterate_succ_apply]
      have hk : k < f := by omega
      rw [findAux_succ f, findAux_succ (k + 1), if_neg hpx, if_neg hpx,
        ih (uf.p x) f hpxlt hroot' hk]

/-- Specification of `find`. -/
theorem find_spec (uf : UnionFind) (hInv : Inv uf) {x : Nat}
    (hx : x < uf.size) :
    (uf.find x).2 = uf.rootOf x ∧
    (uf.find x).1.parent.length = uf.parent.length ∧
    (uf.find x).1.rank = uf.rank ∧
    Inv (uf.find x).1 ∧
    (∀ y, y < uf.size → (uf.find x).1.rootOf y = uf.rootOf y) := by
  obtain ⟨k, hk, hroot⟩ := uf.exists_root_reach hInv hx
  exact uf.findAux_spec hInv k x uf.size hx hroot hk

/-- Specification of `union x y`: the invariant is preserved and the
resulting partition merges exactly the classes of `x` and `y`. -/
theorem union_spec (uf : UnionFind) (hInv : Inv uf) {x y : Nat}
    (hx : x < uf.size) (hy : y < uf.size) :
    Inv (uf.union x y) ∧
    (uf.union x y).parent.length = uf.parent.length ∧
    (∀ a b, a < uf.size → b < uf.size →
      ((uf.union x y).rootOf a = (uf.union x y).rootOf b ↔
        (uf.rootOf a = uf.rootOf b ∨
          (uf.rootOf a = uf.rootOf x ∧ uf.rootOf b = uf.rootOf y) ∨
          (uf.rootOf a = uf.rootOf y ∧ uf.rootOf b = uf.rootOf x)))) := by
  obtain ⟨hsnd1, hplen1, hrank1, hInv1, hpres1⟩ := uf.find_spec hInv hx
  set fx := uf.find x with hfx
  have hsz1 : fx.1.size = uf.size := by rw [UnionFind.size, hplen1]; rfl
  have hy1 : y < fx.1.size := by rwa [hsz1]
  obtain ⟨hsnd2, hplen2, hrank2, hInv2, hpres2⟩ := fx.1.find_spec hInv1 hy1
  set fy := fx.1.find y with hfy
  have hsz2 : fy.1.size = uf.size := by
    rw [UnionFind.size, hplen2, hplen1]; rfl
  have hrk2 : ∀ z, fy.1.rk z = uf.rk z := by
    intro z
    rw [UnionFind.rk, hrank2, hrank1]
    rfl
  have hpres : ∀ z, z < uf.size → fy.1.rootOf z = uf.rootOf z := by
    intro z hz
    rw [hpres2 z (by rwa [hsz1]), hpres1 z hz]
  have hrx : fx.2 = uf.rootOf x := hsnd1
  have hry : fy.2 = uf.rootOf y := by
    rw [hsnd2, hpres1 y hy]
  have hrxlt : uf.rootOf x < uf.size := uf.rootOf_lt hInv hx
  have hrylt : uf.rootOf y < uf.size := uf.rootOf_lt hInv hy
  have hrootx2 : fy.1.isRoot fx.2 := by
    rw [hrx]
    have : fy.1.rootOf (uf.rootOf x) = uf.rootOf x := by
      rw [hpres _ hrxlt]
      exact uf.rootOf_of_isRoot (uf.isRoot_rootOf hInv hx)
    have hlt : uf.rootOf x < fy.1.size := by rwa [hsz2]
    have := fy.1.isRoot_rootOf hInv2 hlt
    rwa [‹fy.1.rootOf (uf.rootOf x) = uf.rootOf x›] at this
  have hrooty2 : fy.1.isRoot fy.2 := by
    rw [hry]
    have heq : fy.1.rootOf (uf.rootOf y) = uf.rootOf y := by
      rw [hpres _ hrylt]
      exact uf.rootOf_of_isRoot (uf.isRoot_rootOf hInv hy)
    have hlt : uf.rootOf y < fy.1.size := by rwa [hsz2]
    have := fy.1.isRoot_rootOf hInv2 hlt
    rwa [heq] at this
  rw [UnionFind.union]
  simp only [← hfx, ← hfy]
  by_cases hxy : fx.2 = fy.2
  · rw [if_pos hxy]
    have hxyroot : uf.rootOf x = uf.rootOf y := by rw [← hrx, ← hry, hxy]
    refine ⟨hInv2, by rw [hplen2, hplen1], ?_⟩
    intro a b ha hb
    rw [hpres a ha, hpres b hb]
    constructor
    · intro h; exact Or.inl h
    · rintro (h | ⟨h1, h2⟩ | ⟨h1, h2⟩)
      · exact h
      · rw [h1, h2, hxyroot]
      · rw [h1, h2, hxyroot]
  · rw [if_neg hxy]
    have hne' : fy.2 ≠ fx.2 := Ne.symm hxy
    have hx2lt : fx.2 < fy.1.size := by rw [hsz2, hrx]; exact hrxlt
    have hy2lt : fy.2 < fy.1.size := by rw [hsz2, hry]; exact hrylt
    have hmain : ∀ (winner loser : Nat) (rank' : List Nat),
        winner < fy.1.size → loser < fy.1.size →
        fy.1.isRoot winner → fy.1.isRoot loser → winner ≠ loser →
        rank'.length = fy.1.rank.length →
        (∀ z, z ≠ winner → rank'.getD z 0 = fy.1.rk z) →
        fy.1.rk winner ≤ rank'.getD winner 0 →
        fy.1.rk loser < rank'.getD winner 0 →
        ((winner = fx.2 ∧ loser = fy.2) ∨ (winner = fy.2 ∧ loser = fx.2)) →
        Inv (⟨fy.1.parent.set loser winner, rank'⟩ : UnionFind) ∧
        (⟨fy.1.parent.set loser winner, rank'⟩ : UnionFind).parent.length =
          uf.parent.length ∧
        (∀ a b, a < uf.size → b < uf.size →
          ((⟨fy.1.parent.set loser winner, rank'⟩ : UnionFind).rootOf a =
            (⟨fy.1.parent.set loser winner, rank'⟩ : UnionFind).rootOf b ↔
            (uf.rootOf a = uf.rootOf b ∨
              (uf.rootOf a = uf.rootOf x ∧ uf.rootOf b = uf.rootOf y) ∨
              (uf.rootOf a = uf.rootOf y ∧ uf.rootOf b = uf.rootOf x)))) := by
      intro winner loser rank' hw hl hwr hlr hwl hlen' hsame' hge' hlt' hcase
      obtain ⟨hInvA, hmapA⟩ := fy.1.attach_spec hInv2 hw hl hwr hlr hwl
        rank' hlen' hsame' hge' hlt'
      refine ⟨hInvA, ?_, ?_⟩
      · simp only [List.length_set]
        rw [hplen2, hplen1]
      · intro a b ha hb
        have ha2 : a < fy.1.size := by rwa [hsz2]
        have hb2 : b < fy.1.size := by rwa [hsz2]
        rw [hmapA a ha2, hmapA b hb2, hpres a ha, hpres b hb]
        have hwins : (winner = uf.rootOf x ∧ loser = uf.rootOf y) ∨
            (winner = uf.rootOf y ∧ loser = uf.rootOf x) := by
          rcases hcase with ⟨h1, h2⟩ | ⟨h1, h2⟩
          · exact Or.inl ⟨by rw [h1, hrx], by rw [h2, hry]⟩
          · exact Or.inr ⟨by rw [h1, hry], by rw [h2, hrx]⟩
        rcases hwins with ⟨hwin, hlos⟩ | ⟨hwin, hlos⟩
        · subst hwin
          subst hlos
          exact if_collapse_iff (uf.rootOf x) (uf.rootOf y) (uf.rootOf a)
            (uf.rootOf b) hwl
        · subst hwin
          subst hlos
          exact (if_collapse_iff (uf.rootOf y) (uf.rootOf x) (uf.rootOf a)
            (uf.rootOf b) hwl).trans (or_congr_right or_comm)
    by_cases hc1 : fy.1.rk fx.2 < fy.1.rk fy.2
    · rw [if_pos hc1]
      exact hmain fy.2 fx.2 fy.1.rank hy2lt hx2lt hrooty2 hrootx2 hne'
        rfl (fun z _ => rfl) le_rfl hc1 (Or.inr ⟨rfl, rfl⟩)
    · rw [if_neg hc1]
      by_cases hc2 : fy.1.rk fy.2 < fy.1.rk fx.2
      · rw [if_pos hc2]
        exact hmain fx.2 fy.2 fy.1.rank hx2lt hy2lt hrootx2 hrooty2
          (Ne.symm hne') rfl (fun z _ => rfl) le_rfl hc2
          (Or.inl ⟨rfl, rfl⟩)
      · rw [if_neg hc2]
        have hrkeq : fy.1.rk fy.2 = fy.1.rk fx.2 := by omega
        have hx2rank : fx.2 < fy.1.rank.length := by
          rw [hrank2, hrank1, hInv.1]
          rw [hrx]
          exact hrxlt
        refine hmain fx.2 fy.2 (fy.1.rank.set fx.2 (fy.1.rk fx.2 + 1))
          hx2lt hy2lt hrootx2 hrooty2 (Ne.symm hne')
          (by simp) ?_ ?_ ?_ (Or.inl ⟨rfl, rfl⟩)
        · intro z hz
          rw [UnionFind.rk, getD_set_nat _ _ _ _ hx2rank, if_neg hz]
          rfl
        · rw [getD_set_nat _ _ _ _ hx2rank, if_pos rfl]
          omega
        · rw [getD_set_nat _ _ _ _ hx2rank, if_pos rfl]
          omega

end UnionFind

/-- An operation on the disjoint-set structure. -/
inductive UFOp where
  | unionOp (x y : Nat)
  | findOp (x : Nat)
deriving DecidableEq

/-- Apply one operation (a `find` is run for its mutation of the parent
array). -/
def applyUFOp (uf : UnionFind) (op : UFOp) : UnionFind :=
  match op with
  | .unionOp x y => uf.union x y
  | .findOp x => (uf.find x).1

/-- The state after an arbitrary sequence of `union`/`find` calls on
`new UnionFind(n)`. -/
def runUFOps (n : Nat) (ops : List UFOp) : UnionFind :=
  ops.foldl applyUFOp (UnionFind.init n)

/-- The indices an operation touches. -/
def UFOp.args : UFOp → List Nat
  | .unionOp x y => [x, y]
  | .findOp x => [x]

theorem size_init (n : Nat) : (UnionFind.init n).size = n := by
  simp [UnionFind.init, UnionFind.size]

/-- Invariant and size are preserved by any sequence of in-range
operations. -/
theorem foldl_applyUFOp_spec (n : Nat) :
    ∀ (ops : List UFOp) (uf : UnionFind), UnionFind.Inv uf →
      uf.size = n → (∀ op ∈ ops, ∀ a ∈ op.args, a < n) →
      UnionFind.Inv (ops.foldl applyUFOp uf) ∧
        (ops.foldl applyUFOp uf).size = n := by
  intro ops
  induction ops with
  | nil => intro uf hInv hsz _; exact ⟨hInv, hsz⟩
  | cons op ops ih =>
    intro uf hInv hsz hops
    have hopsTail : ∀ op ∈ ops, ∀ a ∈ op.args, a < n := by
      intro o ho a ha
      exact hops o (List.mem_cons_of_mem _ ho) a ha
    rw [List.foldl_cons]
    match op with
    | .unionOp x y =>
      have hx : x < uf.size := by
        rw [hsz]
        exact hops _ (List.mem_cons_self _ _) x (by simp [UFOp.args])
      have hy : y < uf.size := by
        rw [hsz]
        exact hops _ (List.mem_cons_self _ _) y (by simp [UFOp.args])
      obtain ⟨hInv', hlen', _⟩ := uf.union_spec hInv hx hy
      refine ih _ hInv' ?_ hopsTail
      show (uf.union x y).parent.length = n
      rw [hlen']
      exact hsz
    | .findOp x =>
      have hx : x < uf.size := by
        rw [hsz]
        exact hops _ (List.mem_cons_self _ _) x (by simp [UFOp.args])
      obtain ⟨_, hlen', _, hInv', _⟩ := uf.find_spec hInv hx
      refine ih _ hInv' ?_ hopsTail
      show (uf.find x).1.parent.length = n
      rw [hlen']
      exact hsz

/-- (C10) Invariant of the `UnionFind` structure: after any sequence of
in-range `union` and `find` operations on a forest initialised over
`0 .. n-1`, the parent array encodes a rooted forest (the root of every
index is a fixed point of the parent map, reached by following parent
pointers), the recursive path-compressing `find` terminates (any fuel of
at least `size` computes it) and returns the root without changing which
indices share a root, and `union x y` merges exactly the classes of `x`
and `y` and leaves all other classes unchanged. -/
theorem unionFind_runUFOps_spec (n : Nat) (ops : List UFOp)
    (hops : ∀ op ∈ ops, ∀ a ∈ op.args, a < n) :
    (runUFOps n ops).size = n ∧
    UnionFind.Inv (runUFOps n ops) ∧
    (∀ x, x < n → (runUFOps n ops).isRoot ((runUFOps n ops).rootOf x)) ∧
    (∀ x, x < n →
      ((runUFOps n ops).find x).2 = (runUFOps n ops).rootOf x ∧
      (runUFOps n ops).isRoot (((runUFOps n ops).find x).2) ∧
      (∀ fuel, (runUFOps n ops).size ≤ fuel →
        UnionFind.findAux fuel (runUFOps n ops) x =
          (runUFOps n ops).find x) ∧
      (∀ y, y < n →
        (((runUFOps n ops).find x).1).rootOf y =
          (runUFOps n ops).rootOf y)) ∧
    (∀ x y a b, x < n → y < n → a < n → b < n →
      (((runUFOps n ops).union x y).rootOf a =
          ((runUFOps n ops).union x y).rootOf b ↔
        ((runUFOps n ops).rootOf a = (runUFOps n ops).rootOf b ∨
          ((runUFOps n ops).rootOf a = (runUFOps n ops).rootOf x ∧
            (runUFOps n ops).rootOf b = (runUFOps n ops).rootOf y) ∨
          ((runUFOps n ops).rootOf a = (runUFOps n ops).rootOf y ∧
            (runUFOps n ops).rootOf b = (runUFOps n ops).rootOf x)))) := by
  obtain ⟨hInv, hsz⟩ := foldl_applyUFOp_spec n ops (UnionFind.init n)
    (UnionFind.Inv.init n) (size_init n) hops
  have hufdef : runUFOps n ops = ops.foldl applyUFOp (UnionFind.init n) :=
    rfl
  rw [← hufdef] at hInv hsz
  set uf := runUFOps n ops with hufset
  refine ⟨hsz, hInv, ?_, ?_, ?_⟩
  · intro x hx
    exact uf.isRoot_rootOf hInv (by rwa [hsz])
  · intro x hx
    have hx' : x < uf.size := by rwa [hsz]
    obtain ⟨hsnd, _, _, _, hpres⟩ := uf.find_spec hInv hx'
    obtain ⟨k, hk, hroot⟩ := uf.exists_root_reach hInv hx'
    refine ⟨hsnd, ?_, ?_, ?_⟩
    · rw [hsnd]
      exact uf.isRoot_rootOf hInv hx'
    · intro fuel hfuel
      have h1 := uf.findAux_fuel_irrelevant hInv k x fuel hx' hroot
        (by omega)
      have h2 := uf.findAux_fuel_irrelevant hInv k x uf.size hx' hroot hk
      rw [h1, UnionFind.find, h2]
    · intro y hy
      exact hpres y (by rwa [hsz])
  · intro x y a b hx hy ha hb
    obtain ⟨_, _, hchar⟩ := uf.union_spec hInv (by rwa [hsz] : x < uf.size)
      (by rwa [hsz] : y < uf.size)
    exact hchar a b (by rwa [hsz]) (by rwa [hsz])

/-! ## The spatial grid index and the clustering orchestrator -/

/-- The grid of `createGridIndex`, as a lookup function: the key
`(row, col)` maps to the indices (ascending, which is the insertion
order of the `events.forEach` loop) of the events located in that cell.
A key the map does not contain maps to the empty list, which makes the
`grid.has(key)` test of `getNearbyIndices` equivalent to concatenating
the (possibly empty) lists. -/
def createGridIndex (cell : Nat → Option ℤ × Option ℤ) (n : Nat)
    (key : Option ℤ × Option ℤ) : List Nat :=
  (List.range n).filter (fun i => decide (cell i = key))

/-- `getNearbyIndices(grid, row, col)`: the concatenation of the grid
entries of the 3×3 block of cells centred on `(row, col)` (outer loop
over the row offset, inner loop over the column offset).  A `NaN` row or
column (`none`) stays `NaN` after adding the offset, exactly as the
string keys collapse in the source. -/
def getNearbyIndices (grid : Option ℤ × Option ℤ → List Nat)
    (row col : Option ℤ) : List Nat :=
  ([-1, 0, 1] : List ℤ).flatMap (fun i =>
    ([-1, 0, 1] : List ℤ).flatMap (fun j =>
      grid (row.map (· + i), col.map (· + j))))

/-- The double loop of `clusterEvents` that unions every pair `(i, j)`
with `i < j`, `j` in the 3×3 neighbourhood of `i`'s cell, and
`calculateDistance(...) <= radiusInMeters` (the test `near i j`). -/
def unionLoop (n : Nat) (cell : Nat → Option ℤ × Option ℤ)
    (near : Nat → Nat → Bool) : UnionFind :=
  (List.range n).foldl (fun uf i =>
    (getNearbyIndices (createGridIndex cell n) (cell i).1 (cell i).2).foldl
      (fun uf2 j =>
        if i < j then (if near i j then uf2.union i j else uf2) else uf2)
      uf)
    (UnionFind.init n)

/-- One step of the labelling loop
(`validEvents.map((event, index) => ...)`): run `find(index)` (which
compresses paths), mint a fresh cluster id for a root seen for the first
time (`rootToClusterId` is the association list, the k-th minted id is
`gen k`), and append the label of this event. -/
def labelStep {L : Type} (gen : Nat → L)
    (st : UnionFind × List (Nat × Nat) × List L) (index : Nat) :
    UnionFind × List (Nat × Nat) × List L :=
  let fr := st.1.find index
  match st.2.1.lookup fr.2 with
  | some t => (fr.1, st.2.1, st.2.2 ++ [gen t])
  | none =>
      (fr.1, st.2.1 ++ [(fr.2, st.2.1.length)],
        st.2.2 ++ [gen st.2.1.length])

/-- The cluster label of every index `0 .. n-1`, computed exactly as the
source: build the union-find by the grid-driven union loop, then label
the indices in order. -/
def clusterCore {L : Type} (n : Nat) (cell : Nat → Option ℤ × Option ℤ)
    (near : Nat → Nat → Bool) (gen : Nat → L) : List L :=
  ((List.range n).foldl (labelStep gen) (unionLoop n cell near, [], [])).2.2

/-- Two indices lie in the same disjoint-set class. -/
def sameRoot (uf : UnionFind) (a b : Nat) : Prop :=
  uf.rootOf a = uf.rootOf b

/-- The equivalence closure of a relation on indices: `a` and `b` are
connected through a chain of related indices (transitively, not
necessarily pairwise). -/
inductive Conn (R : Nat → Nat → Prop) : Nat → Nat → Prop where
  | base {a b : Nat} : R a b → Conn R a b
  | refl (a : Nat) : Conn R a a
  | symm {a b : Nat} : Conn R a b → Conn R b a
  | trans {a b c : Nat} : Conn R a b → Conn R b c → Conn R a c

theorem Conn.bind {R S : Nat → Nat → Prop}
    (h : ∀ u v, R u v → Conn S u v) {a b : Nat} :
    Conn R a b → Conn S a b := by
  intro hc
  induction hc with
  | base hr => exact h _ _ hr
  | refl a => exact Conn.refl a
  | symm _ ih => exact Conn.symm ih
  | trans _ _ ih1 ih2 => exact Conn.trans ih1 ih2

theorem Conn.mono {R S : Nat → Nat → Prop}
    (h : ∀ u v, R u v → S u v) {a b : Nat} :
    Conn R a b → Conn S a b :=
  Conn.bind (fun u v hr => Conn.base (h u v hr))

theorem Conn.eq_map {R : Nat → Nat → Prop} {f : Nat → Nat}
    (h : ∀ u v, R u v → f u = f v) {a b : Nat} :
    Conn R a b → f a = f b := by
  intro hc
  induction hc with
  | base hr => exact h _ _ hr
  | refl a => rfl
  | symm _ ih => exact ih.symm
  | trans _ _ ih1 ih2 => exact ih1.trans ih2

theorem Conn.or_eq_iff {R : Nat → Nat → Prop} {a b : Nat} :
    Conn (fun u v => u = v ∨ R u v) a b ↔ Conn R a b := by
  constructor
  · refine Conn.bind ?_
    rintro u v (rfl | hr)
    · exact Conn.refl u
    · exact Conn.base hr
  · exact Conn.mono (fun u v hr => Or.inr hr)

namespace UnionFind

theorem rootOf_of_ge (uf : UnionFind) {x : Nat} (hx : uf.size ≤ x) :
    uf.rootOf x = x := by
  have : uf.isRoot x := uf.p_of_ge hx
  exact uf.rootOf_of_isRoot this

theorem rootOf_init (n x : Nat) : (UnionFind.init n).rootOf x = x := by
  have hroot : (UnionFind.init n).isRoot x := by
    rw [UnionFind.isRoot, UnionFind.p, UnionFind.init]
    by_cases hx : x < n
    · simp [List.getD_eq_getElem?_getD, List.getElem?_range hx]
    · have hlen : (List.range n).length ≤ x := by
        simpa using not_lt.mp hx
      simp [List.getD_eq_getElem?_getD, List.getElem?_eq_none hlen]
  exact (UnionFind.init n).rootOf_of_isRoot hroot

/-- The `union` class characterisation, for arbitrary (also
out-of-range) query indices. -/
theorem sameRoot_union_iff (uf : UnionFind) (hInv : Inv uf) {x y : Nat}
    (hx : x < uf.size) (hy : y < uf.size) (a b : Nat) :
    sameRoot (uf.union x y) a b ↔
      (sameRoot uf a b ∨
        (sameRoot uf a x ∧ sameRoot uf b y) ∨
        (sameRoot uf a y ∧ sameRoot uf b x)) := by
  obtain ⟨hInv', hlen', hchar⟩ := uf.union_spec hInv hx hy
  have hsz : (uf.union x y).size = uf.size := hlen'
  have hju : ∀ z, uf.size ≤ z → (uf.union x y).rootOf z = z := by
    intro z hz
    exact (uf.union x y).rootOf_of_ge (by rwa [hsz])
  have hrx : uf.rootOf x < uf.size := uf.rootOf_lt hInv hx
  have hry : uf.rootOf y < uf.size := uf.rootOf_lt hInv hy
  simp only [sameRoot]
  by_cases ha : a < uf.size <;> by_cases hb : b < uf.size
  · exact hchar a b ha hb
  · have hbu : uf.rootOf b = b := uf.rootOf_of_ge (not_lt.mp hb)
    have hb'u : (uf.union x y).rootOf b = b := hju b (not_lt.mp hb)
    have hau : (uf.union x y).rootOf a < uf.size := by
      rw [← hsz] at ha ⊢
      exact (uf.union x y).rootOf_lt hInv' ha
    have haul : uf.rootOf a < uf.size := uf.rootOf_lt hInv ha
    constructor
    · intro h
      omega
    · intro h
      omega
  · have hau : uf.rootOf a = a := uf.rootOf_of_ge (not_lt.mp ha)
    have ha'u : (uf.union x y).rootOf a = a := hju a (not_lt.mp ha)
    have hbu : (uf.union x y).rootOf b < uf.size := by
      rw [← hsz] at hb ⊢
      exact (uf.union x y).rootOf_lt hInv' hb
    have hbul : uf.rootOf b < uf.size := uf.rootOf_lt hInv hb
    constructor
    · intro h
      omega
    · intro h
      omega
  · have hau : uf.rootOf a = a := uf.rootOf_of_ge (not_lt.mp ha)
    have hbu : uf.rootOf b = b := uf.rootOf_of_ge (not_lt.mp hb)
    have ha'u : (uf.union x y).rootOf a = a := hju a (not_lt.mp ha)
    have hb'u : (uf.union x y).rootOf b = b := hju b (not_lt.mp hb)
    constructor
    · intro h
      omega
    · intro h
      omega

end UnionFind

/-- Processing of one `(i, j)` pair of the union loop. -/
def pairStep (near : Nat → Nat → Bool) (uf : UnionFind) (pr : Nat × Nat) :
    UnionFind :=
  if pr.1 < pr.2 then
    (if near pr.1 pr.2 then uf.union pr.1 pr.2 else uf)
  else uf

/-- The `(i, j)` pairs visited by the union loop, in visit order. -/
def pairsOf (n : Nat) (cell : Nat → Option ℤ × Option ℤ) :
    List (Nat × Nat) :=
  (List.range n).flatMap (fun i =>
    (getNearbyIndices (createGridIndex cell n) (cell i).1 (cell i).2).map
      (fun j => (i, j)))

theorem foldl_flatMap {α β γ : Type} (l : List α) (f : α → List β)
    (g : γ → β → γ) (init : γ) :
    (l.flatMap f).foldl g init =
      l.foldl (fun acc a => (f a).foldl g acc) init := by
  induction l generalizing init with
  | nil => rfl
  | cons a l ih => simp [List.foldl_append, ih]

theorem unionLoop_eq_foldl_pairs (n : Nat)
    (cell : Nat → Option ℤ × Option ℤ) (near : Nat → Nat → Bool) :
    unionLoop n cell near =
      (pairsOf n cell).foldl (pairStep near) (UnionFind.init n) := by
  rw [unionLoop, pairsOf, foldl_flatMap]
  have hfun : ∀ (uf : UnionFind) (i : Nat),
      ((getNearbyIndices (createGridIndex cell n) (cell i).1
          (cell i).2).map (fun j => (i, j))).foldl (pairStep near) uf =
        (getNearbyIndices (createGridIndex cell n) (cell i).1
          (cell i).2).foldl (fun uf2 j =>
            if i < j then (if near i j then uf2.union i j else uf2)
            else uf2) uf := by
    intro uf i
    rw [List.foldl_map]
    rfl
  have : (fun (uf : UnionFind) (i : Nat) =>
      (getNearbyIndices (createGridIndex cell n) (cell i).1
        (cell i).2).foldl (fun uf2 j =>
          if i < j then (if near i j then uf2.union i j else uf2)
          else uf2) uf) =
    (fun (uf : UnionFind) (i : Nat) =>
      ((getNearbyIndices (createGridIndex cell n) (cell i).1
        (cell i).2).map (fun j => (i, j))).foldl (pairStep near) uf) := by
    funext uf i
    rw [hfun]
  rw [this]

/-- An edge actually unioned: a visited pair that passed the `i < j` and
distance tests. -/
def edgeIn (prs : List (Nat × Nat)) (near : Nat → Nat → Bool)
    (u v : Nat) : Prop :=
  (u, v) ∈ prs ∧ u < v ∧ near u v = true

/-- After folding the union steps over a pair list, two indices share a
root exactly when they are connected through the base partition and the
unioned edges. -/
theorem foldl_pairStep_sameRoot (near : Nat → Nat → Bool) (n : Nat) :
    ∀ (prs : List (Nat × Nat)) (uf : UnionFind), UnionFind.Inv uf →
      uf.size = n → (∀ pr ∈ prs, pr.1 < n ∧ pr.2 < n) →
      UnionFind.Inv (prs.foldl (pairStep near) uf) ∧
      (prs.foldl (pairStep near) uf).size = n ∧
      (∀ a b, sameRoot (prs.foldl (pairStep near) uf) a b ↔
        Conn (fun u v => sameRoot uf u v ∨ edgeIn prs near u v) a b) := by
  intro prs
  induction prs with
  | nil =>
    intro uf hInv hsz _
    refine ⟨hInv, hsz, ?_⟩
    intro a b
    constructor
    · intro h
      exact Conn.base (Or.inl h)
    · refine Conn.eq_map ?_
      rintro u v (h | h)
      · exact h
      · exact absurd h.1 (List.not_mem_nil _)
  | cons pr prs ih =>
    intro uf hInv hsz hprs
    have hprstail : ∀ p ∈ prs, p.1 < n ∧ p.2 < n := by
      intro p hp
      exact hprs p (List.mem_cons_of_mem _ hp)
    rw [List.foldl_cons]
    by_cases hcond : pr.1 < pr.2 ∧ near pr.1 pr.2 = true
    · have hstep : pairStep near uf pr = uf.union pr.1 pr.2 := by
        rw [pairStep, if_pos hcond.1, if_pos hcond.2]
      have hp1 : pr.1 < uf.size := by
        rw [hsz]; exact (hprs pr (List.mem_cons_self _ _)).1
      have hp2 : pr.2 < uf.size := by
        rw [hsz]; exact (hprs pr (List.mem_cons_self _ _)).2
      obtain ⟨hInv1, hlen1, _⟩ := uf.union_spec hInv hp1 hp2
      have hsz1 : (uf.union pr.1 pr.2).size = n := by
        show (uf.union pr.1 pr.2).parent.length = n
        rw [hlen1]; exact hsz
      rw [hstep]
      obtain ⟨hInvF, hszF, hiff⟩ :=
        ih (uf.union pr.1 pr.2) hInv1 hsz1 hprstail
      refine ⟨hInvF, hszF, ?_⟩
      intro a b
      rw [hiff a b]
      constructor
      · refine Conn.bind ?_
        rintro u v (h | h)
        · rw [uf.sameRoot_union_iff hInv hp1 hp2 u v] at h
          rcases h with h | ⟨h1, h2⟩ | ⟨h1, h2⟩
          · exact Conn.base (Or.inl h)
          · refine Conn.trans (Conn.base (Or.inl h1))
              (Conn.trans (Conn.base (Or.inr
                ⟨List.mem_cons_self _ _, hcond.1, hcond.2⟩)) ?_)
            exact Conn.base (Or.inl h2.symm)
          · refine Conn.trans (Conn.base (Or.inl h1))
              (Conn.trans (Conn.symm (Conn.base (Or.inr
                ⟨List.mem_cons_self _ _, hcond.1, hcond.2⟩))) ?_)
            exact Conn.base (Or.inl h2.symm)
        · exact Conn.base (Or.inr ⟨List.mem_cons_of_mem _ h.1, h.2⟩)
      · refine Conn.bind ?_
        rintro u v (h | h)
        · refine Conn.base (Or.inl ?_)
          rw [uf.sameRoot_union_iff hInv hp1 hp2 u v]
          exact Or.inl h
        · rcases List.mem_cons.mp h.1 with heq | hmem
          · refine Conn.base (Or.inl ?_)
            rw [uf.sameRoot_union_iff hInv hp1 hp2 u v]
            have hu : u = pr.1 := by rw [← heq]
            have hv : v = pr.2 := by rw [← heq]
            refine Or.inr (Or.inl ⟨?_, ?_⟩)
            · rw [hu]
              rfl
            · rw [hv]
              rfl
          · exact Conn.base (Or.inr ⟨hmem, h.2⟩)
    · have hstep : pairStep near uf pr = uf := by
        rw [pairStep]
        by_cases hlt : pr.1 < pr.2
        · rw [if_pos hlt]
          have hnear : ¬ near pr.1 pr.2 = true := fun hn => hcond ⟨hlt, hn⟩
          rw [if_neg hnear]
        · rw [if_neg hlt]
      rw [hstep]
      obtain ⟨hInvF, hszF, hiff⟩ := ih uf hInv hsz hprstail
      refine ⟨hInvF, hszF, ?_⟩
      intro a b
      rw [hiff a b]
      constructor
      · refine Conn.bind ?_
        rintro u v (h | h)
        · exact Conn.base (Or.inl h)
        · exact Conn.base (Or.inr ⟨List.mem_cons_of_mem _ h.1, h.2⟩)
      · refine Conn.bind ?_
        rintro u v (h | h)
        · exact Conn.base (Or.inl h)
        · rcases List.mem_cons.mp h.1 with heq | hmem
          · exfalso
            apply hcond
            have hu : u = pr.1 := by rw [← heq]
            have hv : v = pr.2 := by rw [← heq]
            rw [← hu, ← hv]
            exact ⟨h.2.1, h.2.2⟩
          · exact Conn.base (Or.inr ⟨hmem, h.2⟩)

/-- Two cells are within one step of each other in each axis (the 3×3
neighbourhood used by `getNearbyIndices`). -/
def cellAdj (c1 c2 : Option ℤ × Option ℤ) : Prop :=
  ∃ di dj : ℤ, di ∈ ([-1, 0, 1] : List ℤ) ∧ dj ∈ ([-1, 0, 1] : List ℤ) ∧
    c2 = (c1.1.map (· + di), c1.2.map (· + dj))

theorem mem_createGridIndex (cell : Nat → Option ℤ × Option ℤ) (n : Nat)
    (key : Option ℤ × Option ℤ) (j : Nat) :
    j ∈ createGridIndex cell n key ↔ j < n ∧ cell j = key := by
  simp [createGridIndex, List.mem_filter, List.mem_range]

theorem mem_getNearbyIndices (grid : Option ℤ × Option ℤ → List Nat)
    (row col : Option ℤ) (j : Nat) :
    j ∈ getNearbyIndices grid row col ↔
      ∃ di ∈ ([-1, 0, 1] : List ℤ), ∃ dj ∈ ([-1, 0, 1] : List ℤ),
        j ∈ grid (row.map (· + di), col.map (· + dj)) := by
  constructor
  · intro h
    rw [getNearbyIndices, List.mem_flatMap] at h
    obtain ⟨di, hdi, hj⟩ := h
    rw [List.mem_flatMap] at hj
    obtain ⟨dj, hdj, hj⟩ := hj
    exact ⟨di, hdi, dj, hdj, hj⟩
  · rintro ⟨di, hdi, dj, hdj, hj⟩
    rw [getNearbyIndices, List.mem_flatMap]
    refine ⟨di, hdi, ?_⟩
    rw [List.mem_flatMap]
    exact ⟨dj, hdj, hj⟩

theorem mem_pairsOf (n : Nat) (cell : Nat → Option ℤ × Option ℤ)
    (i j : Nat) :
    (i, j) ∈ pairsOf n cell ↔
      i < n ∧ j < n ∧ cellAdj (cell i) (cell j) := by
  constructor
  · intro h
    rw [pairsOf, List.mem_flatMap] at h
    obtain ⟨i', hi', hmem⟩ := h
    rw [List.mem_map] at hmem
    obtain ⟨j', hj', heq⟩ := hmem
    have hii : i' = i := (Prod.mk.injEq _ _ _ _).mp heq |>.1
    have hjj : j' = j := (Prod.mk.injEq _ _ _ _).mp heq |>.2
    subst hii
    subst hjj
    rw [mem_getNearbyIndices] at hj'
    obtain ⟨di, hdi, dj, hdj, hj⟩ := hj'
    rw [mem_createGridIndex] at hj
    exact ⟨List.mem_range.mp hi', hj.1, di, dj, hdi, hdj, hj.2⟩
  · rintro ⟨hi, hj, di, dj, hdi, hdj, hc⟩
    rw [pairsOf, List.mem_flatMap]
    refine ⟨i, List.mem_range.mpr hi, ?_⟩
    rw [List.mem_map]
    refine ⟨j, ?_, rfl⟩
    rw [mem_getNearbyIndices]
    refine ⟨di, hdi, dj, hdj, ?_⟩
    rw [mem_createGridIndex]
    exact ⟨hj, hc⟩

theorem cellAdj_symm {c1 c2 : Option ℤ × Option ℤ} (h : cellAdj c1 c2) :
    cellAdj c2 c1 := by
  obtain ⟨di, dj, hdi, hdj, hc⟩ := h
  have hdi2 : di = -1 ∨ di = 0 ∨ di = 1 := by simpa using hdi
  have hdj2 : dj = -1 ∨ dj = 0 ∨ dj = 1 := by simpa using hdj
  have hdi' : -di ∈ ([-1, 0, 1] : List ℤ) := by
    have : -di = -1 ∨ -di = 0 ∨ -di = 1 := by omega
    simpa using this
  have hdj' : -dj ∈ ([-1, 0, 1] : List ℤ) := by
    have : -dj = -1 ∨ -dj = 0 ∨ -dj = 1 := by omega
    simpa using this
  refine ⟨-di, -dj, hdi', hdj', ?_⟩
  have h1 : c2.1 = c1.1.map (· + di) := by rw [hc]
  have h2 : c2.2 = c1.2.map (· + dj) := by rw [hc]
  have hm1 : c2.1.map (· + -di) = c1.1 := by
    rw [h1, Option.map_map]
    have : ((· + -di) ∘ (· + di) : ℤ → ℤ) = id := by
      funext z
      simp
    rw [this, Option.map_id]
    rfl
  have hm2 : c2.2.map (· + -dj) = c1.2 := by
    rw [h2, Option.map_map]
    have : ((· + -dj) ∘ (· + dj) : ℤ → ℤ) = id := by
      funext z
      simp
    rw [this, Option.map_id]
    rfl
  rw [hm1, hm2]

/-- Characterisation of the union loop: two indices end in the same
disjoint-set class exactly when they are connected (transitively)
through pairs of distinct in-range indices whose cells are 3×3-adjacent
and whose distance test passed. -/
theorem unionLoop_sameRoot (n : Nat) (cell : Nat → Option ℤ × Option ℤ)
    (near : Nat → Nat → Bool)
    (hnearsymm : ∀ u v, near u v = near v u) :
    UnionFind.Inv (unionLoop n cell near) ∧
    (unionLoop n cell near).size = n ∧
    (∀ a b, sameRoot (unionLoop n cell near) a b ↔
      Conn (fun u v => u ≠ v ∧ u < n ∧ v < n ∧
        cellAdj (cell u) (cell v) ∧ near u v = true) a b) := by
  have hbounds : ∀ pr ∈ pairsOf n cell, pr.1 < n ∧ pr.2 < n := by
    intro pr hpr
    have : (pr.1, pr.2) ∈ pairsOf n cell := by simpa using hpr
    rw [mem_pairsOf] at this
    exact ⟨this.1, this.2.1⟩
  obtain ⟨hInv, hsz, hiff⟩ := foldl_pairStep_sameRoot near n
    (pairsOf n cell) (UnionFind.init n) (UnionFind.Inv.init n)
    (size_init n) hbounds
  rw [unionLoop_eq_foldl_pairs]
  refine ⟨hInv, hsz, ?_⟩
  intro a b
  rw [hiff a b]
  constructor
  · refine Conn.bind ?_
    rintro u v (h | h)
    · rw [sameRoot, UnionFind.rootOf_init, UnionFind.rootOf_init] at h
      rw [h]
      exact Conn.refl v
    · obtain ⟨hmem, hlt, hnear⟩ := h
      rw [mem_pairsOf] at hmem
      exact Conn.base ⟨Nat.ne_of_lt hlt, hmem.1, hmem.2.1, hmem.2.2, hnear⟩
  · refine Conn.bind ?_
    rintro u v ⟨hne, hu, hv, hadj, hnear⟩
    rcases Nat.lt_or_ge u v with hlt | hge
    · refine Conn.base (Or.inr ⟨?_, hlt, hnear⟩)
      rw [mem_pairsOf]
      exact ⟨hu, hv, hadj⟩
    · have hlt : v < u := by omega
      refine Conn.symm (Conn.base (Or.inr ⟨?_, hlt, ?_⟩))
      · rw [mem_pairsOf]
        exact ⟨hv, hu, cellAdj_symm hadj⟩
      · rw [hnearsymm v u]
        exact hnear

theorem lookup_append_of_some {β : Type} (l1 l2 : List (Nat × β))
    (r : Nat) (t : β) (h : l1.lookup r = some t) :
    (l1 ++ l2).lookup r = some t := by
  induction l1 with
  | nil => simp [List.lookup] at h
  | cons e l1 ih =>
    rw [List.cons_append]
    match e with
    | (k, v) =>
      simp only [List.lookup] at h ⊢
      cases hkr : (r == k) with
      | true => rw [hkr] at h; exact h
      | false => rw [hkr] at h; exact ih h

theorem lookup_append_fresh {β : Type} (l1 : List (Nat × β)) (r : Nat)
    (v : β) (h : l1.lookup r = none) :
    (l1 ++ [(r, v)]).lookup r = some v := by
  induction l1 with
  | nil => simp [List.lookup]
  | cons e l1 ih =>
    rw [List.cons_append]
    match e with
    | (k, w) =>
      simp only [List.lookup] at h ⊢
      cases hkr : (r == k) with
      | true => rw [hkr] at h; exact absurd h (by simp)
      | false => rw [hkr] at h; exact ih h

theorem mem_of_lookup_eq_some {β : Type} (l : List (Nat × β)) (r : Nat)
    (t : β) (h : l.lookup r = some t) : (r, t) ∈ l := by
  induction l with
  | nil => simp [List.lookup] at h
  | cons e l ih =>
    match e with
    | (k, v) =>
      simp only [List.lookup] at h
      cases hkr : (r == k) with
      | true =>
        rw [hkr] at h
        have hk : r = k := by simpa using hkr
        have hv : v = t := by simpa using h
        rw [hk, hv]
        exact List.mem_cons_self _ _
      | false =>
        rw [hkr] at h
        exact List.mem_cons_of_mem _ (ih h)

/-- The growth of `rootToClusterId` at one index: a first-seen root is
appended with the next fresh label number. -/
def assocStep (uf0 : UnionFind) (assoc : List (Nat × Nat)) (j : Nat) :
    List (Nat × Nat) :=
  match assoc.lookup (uf0.rootOf j) with
  | some _ => assoc
  | none => assoc ++ [(uf0.rootOf j, assoc.length)]

theorem lookup_foldl_assocStep_of_some (uf0 : UnionFind) :
    ∀ (l : List Nat) (assoc : List (Nat × Nat)) (r t : Nat),
      assoc.lookup r = some t →
      ((l.foldl (assocStep uf0) assoc).lookup r = some t) := by
  intro l
  induction l with
  | nil => intro assoc r t h; exact h
  | cons j l ih =>
    intro assoc r t h
    rw [List.foldl_cons]
    refine ih _ r t ?_
    rw [assocStep]
    cases hlk : assoc.lookup (uf0.rootOf j) with
    | some _ => exact h
    | none => exact lookup_append_of_some _ _ _ _ h

theorem lookup_foldl_assocStep_isSome (uf0 : UnionFind) :
    ∀ (l : List Nat) (assoc : List (Nat × Nat)) (j : Nat), j ∈ l →
      ((l.foldl (assocStep uf0) assoc).lookup (uf0.rootOf j)).isSome := by
  intro l
  induction l with
  | nil => intro assoc j h; exact absurd h (List.not_mem_nil _)
  | cons j' l ih =>
    intro assoc j hj
    rw [List.foldl_cons]
    rcases List.mem_cons.mp hj with rfl | hmem
    · cases hlk : assoc.lookup (uf0.rootOf j) with
      | some t =>
        have : ((assocStep uf0 assoc j).lookup (uf0.rootOf j)) = some t := by
          rw [assocStep, hlk]
          exact hlk
        rw [lookup_foldl_assocStep_of_some uf0 l _ _ _ this]
        rfl
      | none =>
        have : ((assocStep uf0 assoc j).lookup (uf0.rootOf j)) =
            some assoc.length := by
          rw [assocStep, hlk]
          exact lookup_append_fresh _ _ _ hlk
        rw [lookup_foldl_assocStep_of_some uf0 l _ _ _ this]
        rfl
    · exact ih _ j hmem

theorem assocStep_snd_range (uf0 : UnionFind) :
    ∀ (l : List Nat) (assoc : List (Nat × Nat)),
      assoc.map Prod.snd = List.range assoc.length →
      ((l.foldl (assocStep uf0) assoc).map Prod.snd =
        List.range (l.foldl (assocStep uf0) assoc).length) := by
  intro l
  induction l with
  | nil => intro assoc h; exact h
  | cons j l ih =>
    intro assoc h
    rw [List.foldl_cons]
    refine ih _ ?_
    rw [assocStep]
    cases hlk : assoc.lookup (uf0.rootOf j) with
    | some _ => exact h
    | none =>
      simp [h, List.range_succ]

/-- In an association list whose values are `0, 1, 2, ...` in order, a
value determines its key. -/
theorem lookup_inj_of_snd_range (assoc : List (Nat × Nat))
    (hvals : assoc.map Prod.snd = List.range assoc.length)
    (r1 r2 t : Nat) (h1 : assoc.lookup r1 = some t)
    (h2 : assoc.lookup r2 = some t) : r1 = r2 := by
  have hm1 : (r1, t) ∈ assoc := mem_of_lookup_eq_some _ _ _ h1
  have hm2 : (r2, t) ∈ assoc := mem_of_lookup_eq_some _ _ _ h2
  have hnodup : (assoc.map Prod.snd).Nodup := by
    rw [hvals]
    exact List.nodup_range _
  have := List.inj_on_of_nodup_map hnodup hm1 hm2 rfl
  exact congrArg Prod.fst this

/-- Shape of the labelling loop with the identity generator: it leaves
the partition intact, grows `rootToClusterId` by `assocStep`, and
appends, for every index in order, the label number found for its root
in the final association list. -/
theorem labelFold_shape (n : Nat) (uf0 : UnionFind)
    (hsz0 : uf0.size = n) :
    ∀ (l : List Nat), (∀ j ∈ l, j < n) →
    ∀ (uf : UnionFind) (assoc : List (Nat × Nat)) (out : List Nat),
      UnionFind.Inv uf → uf.size = n →
      (∀ y, y < n → uf.rootOf y = uf0.rootOf y) →
      (l.foldl (labelStep (fun t => t)) (uf, assoc, out)).2.1 =
        l.foldl (assocStep uf0) assoc ∧
      (l.foldl (labelStep (fun t => t)) (uf, assoc, out)).2.2 =
        out ++ l.map (fun j =>
          ((l.foldl (assocStep uf0) assoc).lookup (uf0.rootOf j)).getD 0) := by
  intro l
  induction l with
  | nil =>
    intro _ uf assoc out _ _ _
    simp
  | cons j l ih =>
    intro hl uf assoc out hInv hsz hpres
    have hj : j < n := hl j (List.mem_cons_self _ _)
    have hj' : j < uf.size := by rwa [hsz]
    obtain ⟨hsnd, hplen, _, hInv', hpres'⟩ := uf.find_spec hInv hj'
    have hfr : (uf.find j).2 = uf0.rootOf j := by
      rw [hsnd]
      exact hpres j hj
    have hsz' : (uf.find j).1.size = n := by
      show (uf.find j).1.parent.length = n
      rw [hplen]
      exact hsz
    have hpres0' : ∀ y, y < n → (uf.find j).1.rootOf y = uf0.rootOf y := by
      intro y hy
      rw [hpres' y (by rwa [hsz]), hpres y hy]
    have hltail : ∀ j' ∈ l, j' < n := by
      intro j' hj'
      exact hl j' (List.mem_cons_of_mem _ hj')
    rw [List.foldl_cons, List.foldl_cons]
    cases hlk : assoc.lookup (uf0.rootOf j) with
    | some t =>
      have hstep : labelStep (fun t => t) (uf, assoc, out) j =
          ((uf.find j).1, assoc, out ++ [t]) := by
        simp only [labelStep]
        rw [hfr, hlk]
      have hastep : assocStep uf0 assoc j = assoc := by
        rw [assocStep, hlk]
      rw [hstep, hastep]
      obtain ⟨ha, ho⟩ := ih hltail (uf.find j).1 assoc (out ++ [t])
        hInv' hsz' hpres0'
      refine ⟨ha, ?_⟩
      rw [ho, List.map_cons, List.append_assoc]
      have hlook : ((l.foldl (assocStep uf0) assoc).lookup
          (uf0.rootOf j)).getD 0 = t := by
        rw [lookup_foldl_assocStep_of_some uf0 l assoc _ _ hlk]
        rfl
      rw [hlook]
      rfl
    | none =>
      have hstep : labelStep (fun t => t) (uf, assoc, out) j =
          ((uf.find j).1, assoc ++ [(uf0.rootOf j, assoc.length)],
            out ++ [assoc.length]) := by
        simp only [labelStep]
        rw [hfr, hlk]
      have hastep : assocStep uf0 assoc j =
          assoc ++ [(uf0.rootOf j, assoc.length)] := by
        rw [assocStep, hlk]
      rw [hstep, hastep]
      obtain ⟨ha, ho⟩ := ih hltail (uf.find j).1
        (assoc ++ [(uf0.rootOf j, assoc.length)]) (out ++ [assoc.length])
        hInv' hsz' hpres0'
      refine ⟨ha, ?_⟩
      rw [ho, List.map_cons, List.append_assoc]
      have hfresh : ((assoc ++ [(uf0.rootOf j, assoc.length)]).lookup
          (uf0.rootOf j)) = some assoc.length :=
        lookup_append_fresh _ _ _ hlk
      have hlook : ((l.foldl (assocStep uf0)
          (assoc ++ [(uf0.rootOf j, assoc.length)])).lookup
          (uf0.rootOf j)).getD 0 = assoc.length := by
        rw [lookup_foldl_assocStep_of_some uf0 l _ _ _ hfresh]
        rfl
      rw [hlook]
      rfl

/-- The generator only decorates the minted label numbers: running the
labelling loop with `gen` is running it with the identity generator and
mapping `gen` over the output. -/
theorem labelStep_natural {L : Type} (gen : Nat → L) :
    ∀ (l : List Nat) (uf : UnionFind) (assoc : List (Nat × Nat))
      (raw : List Nat),
      l.foldl (labelStep gen) (uf, assoc, raw.map gen) =
        ((l.foldl (labelStep (fun t => t)) (uf, assoc, raw)).1,
          (l.foldl (labelStep (fun t => t)) (uf, assoc, raw)).2.1,
          (l.foldl (labelStep (fun t => t)) (uf, assoc, raw)).2.2.map gen) := by
  intro l
  induction l with
  | nil => intro uf assoc raw; rfl
  | cons j l ih =>
    intro uf assoc raw
    rw [List.foldl_cons, List.foldl_cons]
    cases hlk : assoc.lookup ((uf.find j).2) with
    | some t =>
      have h1 : labelStep gen (uf, assoc, raw.map gen) j =
          ((uf.find j).1, assoc, (raw ++ [t]).map gen) := by
        simp only [labelStep]
        rw [hlk, List.map_append]
        rfl
      have h2 : labelStep (fun t => t) (uf, assoc, raw) j =
          ((uf.find j).1, assoc, raw ++ [t]) := by
        simp only [labelStep]
        rw [hlk]
      rw [h1, h2]
      exact ih (uf.find j).1 assoc (raw ++ [t])
    | none =>
      have h1 : labelStep gen (uf, assoc, raw.map gen) j =
          ((uf.find j).1, assoc ++ [((uf.find j).2, assoc.length)],
            (raw ++ [assoc.length]).map gen) := by
        simp only [labelStep]
        rw [hlk, List.map_append]
        rfl
      have h2 : labelStep (fun t => t) (uf, assoc, raw) j =
          ((uf.find j).1, assoc ++ [((uf.find j).2, assoc.length)],
            raw ++ [assoc.length]) := by
        simp only [labelStep]
        rw [hlk]
      rw [h1, h2]
      exact ih (uf.find j).1 (assoc ++ [((uf.find j).2, assoc.length)])
        (raw ++ [assoc.length])

theorem clusterCore_natural {L : Type} (n : Nat)
    (cell : Nat → Option ℤ × Option ℤ) (near : Nat → Nat → Bool)
    (gen : Nat → L) :
    clusterCore n cell near gen =
      (clusterCore n cell near (fun t => t)).map gen := by
  rw [clusterCore, clusterCore]
  have h := labelStep_natural gen (List.range n) (unionLoop n cell near)
    [] []
  have hnil : (([] : List Nat).map gen) = ([] : List L) := rfl
  rw [hnil] at h
  rw [h]

/-- The raw (identity-generator) labels: one entry per index, and two
indices get equal labels exactly when the union loop put them in the
same class. -/
theorem clusterCore_id_spec (n : Nat)
    (cell : Nat → Option ℤ × Option ℤ) (near : Nat → Nat → Bool) :
    (clusterCore n cell near (fun t => t)).length = n ∧
    (∀ k, k < n → (clusterCore n cell near (fun t => t)).get? k =
      some (((( List.range n).foldl (assocStep (unionLoop n cell near))
        []).lookup ((unionLoop n cell near).rootOf k)).getD 0)) ∧
    (∀ k l, k < n → l < n →
      ((clusterCore n cell near (fun t => t)).get? k =
        (clusterCore n cell near (fun t => t)).get? l ↔
        sameRoot (unionLoop n cell near) k l)) := by
  have hInv0 : UnionFind.Inv (unionLoop n cell near) := by
    have hbounds : ∀ pr ∈ pairsOf n cell, pr.1 < n ∧ pr.2 < n := by
      intro pr hpr
      have : (pr.1, pr.2) ∈ pairsOf n cell := by simpa using hpr
      rw [mem_pairsOf] at this
      exact ⟨this.1, this.2.1⟩
    rw [unionLoop_eq_foldl_pairs]
    exact (foldl_pairStep_sameRoot near n (pairsOf n cell)
      (UnionFind.init n) (UnionFind.Inv.init n) (size_init n) hbounds).1
  have hsz0 : (unionLoop n cell near).size = n := by
    have hbounds : ∀ pr ∈ pairsOf n cell, pr.1 < n ∧ pr.2 < n := by
      intro pr hpr
      have : (pr.1, pr.2) ∈ pairsOf n cell := by simpa using hpr
      rw [mem_pairsOf] at this
      exact ⟨this.1, this.2.1⟩
    rw [unionLoop_eq_foldl_pairs]
    exact (foldl_pairStep_sameRoot near n (pairsOf n cell)
      (UnionFind.init n) (UnionFind.Inv.init n) (size_init n)
      hbounds).2.1
  set uf0 := unionLoop n cell near with huf0
  obtain ⟨_, hout⟩ := labelFold_shape n uf0 hsz0 (List.range n)
    (fun j hj => List.mem_range.mp hj) uf0 [] [] hInv0 hsz0
    (fun y _ => rfl)
  have hcore : clusterCore n cell near (fun t => t) =
      (List.range n).map (fun j =>
        (((List.range n).foldl (assocStep uf0) []).lookup
          (uf0.rootOf j)).getD 0) := by
    rw [clusterCore, ← huf0, hout]
    rfl
  have hlen : (clusterCore n cell near (fun t => t)).length = n := by
    rw [hcore]
    simp
  have hget : ∀ k, k < n → (clusterCore n cell near (fun t => t)).get? k =
      some ((((List.range n).foldl (assocStep uf0) []).lookup
        (uf0.rootOf k)).getD 0) := by
    intro k hk
    rw [hcore, List.get?_map, List.get?_range hk]
    rfl
  refine ⟨hlen, hget, ?_⟩
  intro k l hk hl
  rw [hget k hk, hget l hl]
  have hkS := lookup_foldl_assocStep_isSome uf0 (List.range n) [] k
    (List.mem_range.mpr hk)
  have hlS := lookup_foldl_assocStep_isSome uf0 (List.range n) [] l
    (List.mem_range.mpr hl)
  obtain ⟨tk, htk⟩ := Option.isSome_iff_exists.mp hkS
  obtain ⟨tl, htl⟩ := Option.isSome_iff_exists.mp hlS
  rw [htk, htl]
  have hvals := assocStep_snd_range uf0 (List.range n) [] (by simp)
  constructor
  · intro h
    have hteq : tk = tl := by simpa using h
    rw [hteq] at htk
    exact lookup_inj_of_snd_range _ hvals _ _ _ htk htl
  · intro h
    rw [sameRoot] at h
    rw [h] at htk
    have hteq : tk = tl := by
      have := htk.symm.trans htl
      simpa using this
    rw [hteq]

theorem decideCongr {p q : Prop} [Decidable p] [Decidable q]
    (h : p ↔ q) : decide p = decide q := by
  by_cases hp : p
  · rw [decide_eq_true hp, decide_eq_true (h.mp hp)]
  · rw [decide_eq_false hp, decide_eq_false (fun hq => hp (h.mpr hq))]

theorem calculateDistance_symm (c1 c2 : Coord) :
    calculateDistance c1 c2 = calculateDistance c2 c1 := by
  simp only [calculateDistance]
  have h1 : (c1.latitude - c2.latitude) * π / 180 / 2 =
      -((c2.latitude - c1.latitude) * π / 180 / 2) := by ring
  have h2 : (c1.longitude - c2.longitude) * π / 180 / 2 =
      -((c2.longitude - c1.longitude) * π / 180 / 2) := by ring
  rw [h1, h2, Real.sin_neg, Real.sin_neg]
  ring_nf

/-- Exact value of the haversine distance for two points on one
meridian: `R * Δlat` in radians (for a non-negative latitude difference
below 180 degrees). -/
theorem calculateDistance_same_longitude (lat1 lat2 lon : ℝ)
    (h1 : lat1 ≤ lat2) (h2 : lat2 - lat1 < 180) :
    calculateDistance ⟨lat1, lon⟩ ⟨lat2, lon⟩ =
      6371000 * ((lat2 - lat1) * π / 180) := by
  simp only [calculateDistance]
  set θ : ℝ := (lat2 - lat1) * π / 180 / 2 with hθ
  have hπ : (0 : ℝ) < π := Real.pi_pos
  have hθ0 : 0 ≤ θ := by
    rw [hθ]
    have : 0 ≤ lat2 - lat1 := by linarith
    positivity
  have hθlt : θ < π / 2 := by
    rw [hθ]
    have h3 : (lat2 - lat1) * π < 180 * π := by nlinarith
    linarith
  have hsin : 0 ≤ Real.sin θ :=
    Real.sin_nonneg_of_nonneg_of_le_pi hθ0 (by linarith)
  have hcos : 0 < Real.cos θ :=
    Real.cos_pos_of_mem_Ioo ⟨by linarith, hθlt⟩
  have hlon : (lon - lon) * π / 180 / 2 = 0 := by ring
  rw [hlon, Real.sin_zero]
  have ha : Real.sin θ * Real.sin θ +
      Real.cos (lat1 * π / 180) * Real.cos (lat2 * π / 180) * (0 * 0) =
      Real.sin θ * Real.sin θ := by ring
  rw [ha]
  have hsqrt1 : Real.sqrt (Real.sin θ * Real.sin θ) = Real.sin θ :=
    Real.sqrt_mul_self hsin
  have hcossq : 1 - Real.sin θ * Real.sin θ = Real.cos θ * Real.cos θ := by
    have := Real.sin_sq_add_cos_sq θ
    nlinarith [this]
  have hsqrt2 : Real.sqrt (1 - Real.sin θ * Real.sin θ) = Real.cos θ := by
    rw [hcossq]
    exact Real.sqrt_mul_self (le_of_lt hcos)
  rw [hsqrt1, hsqrt2]
  have hatan : atan2 (Real.sin θ) (Real.cos θ) = θ := by
    rw [atan2, if_pos hcos]
    rw [← Real.tan_eq_sin_div_cos]
    exact Real.arctan_tan (by linarith) hθlt
  rw [hatan, hθ]
  ring

/-- The coordinates of `validEvents[i]`. -/
noncomputable def coordAt {P : Type} (valid : List (Event P)) (i : Nat) :
    Coord :=
  match valid.get? i with
  | some e => coordOf e
  | none => ⟨0, 0⟩

/-- The cell of `validEvents[i]`:
`row = Math.floor(latitude / degreesPerCell)`,
`col = Math.floor(longitude / degreesPerCell)`. -/
noncomputable def cellAt {P : Type} (valid : List (Event P)) (d : JSNum)
    (i : Nat) : Option ℤ × Option ℤ :=
  (cellCoord (coordAt valid i).latitude d,
    cellCoord (coordAt valid i).longitude d)

open Classical in
/-- The proximity test of the union loop:
`calculateDistance(validEvents[i].coordinates,
validEvents[j].coordinates) <= radiusInMeters` under JavaScript
comparison (false when the radius is `NaN`, true for every pair when it
is `Infinity`). -/
noncomputable def nearAt {P : Type} (valid : List (Event P))
    (radius : JSNum) (i j : Nat) : Bool :=
  decide (JSNum.jsLe
    (.fin (calculateDistance (coordAt valid i) (coordAt valid j))) radius)

open Classical in
/-- The distance test is symmetric in the two indices. -/
theorem nearAt_symm {P : Type} (valid : List (Event P)) (radius : JSNum)
    (i j : Nat) : nearAt valid radius i j = nearAt valid radius j i := by
  rw [nearAt, nearAt]
  exact decideCongr (by rw [calculateDistance_symm])

/-- An output element: a new object carrying all fields of the input
event plus the assigned `clusterId`. -/
structure Clustered (P L : Type) where
  event : Event P
  clusterId : L

/-- The clustering pipeline on the already validated event list
(`degreesPerCell = radiusInMeters * (360 / earthCircumference)`). -/
noncomputable def clusterValid {P L : Type} (gen : Nat → L)
    (valid : List (Event P)) (radius : JSNum) : List (Clustered P L) :=
  List.zipWith (fun e l => ⟨e, l⟩) valid
    (clusterCore valid.length (cellAt valid (radius.mulPos degPerMeter))
      (nearAt valid radius) gen)

/-- The `events` argument of `clusterEvents`: an array, or any
non-array value. -/
inductive EventsArg (P : Type) where
  | array (events : List (Event P))
  | notArray

open Classical in
/-- `clusterEvents(events, radiusInMeters)`: input validation
(`Array.isArray`, then `typeof radiusInMeters !== 'number' ||
radiusInMeters <= 0`), empty-array early return, validation filter,
empty-valid early return, then the clustering pipeline. -/
noncomputable def clusterEvents {P L : Type} (gen : Nat → L)
    (events : EventsArg P) (radius : JSVal) :
    Except String (List (Clustered P L)) :=
  match events with
  | .notArray => .error "Events must be an array"
  | .array evs =>
    match radius with
    | .num v =>
      if JSNum.jsLe v (.fin 0) then .error "Radius must be a positive number"
      else if evs.isEmpty then .ok []
      else
        let valid := validEvents evs
        if valid.isEmpty then .ok []
        else .ok (clusterValid gen valid v)
    | _ => .error "Radius must be a positive number"

/-! ## Concrete example inputs used by counterexamples and witnesses -/

/-- A radius for which `degreesPerCell` is exactly one degree. -/
noncomputable def exRadius : ℝ := 40075000 / 360

/-- A single valid event. -/
noncomputable def exEvent1 : Event Unit :=
  ⟨.undef, some ⟨.num (.fin 10), .num (.fin 20)⟩, ()⟩

/-- First of a pure-latitude pair at distance just under the radius but
two grid rows apart. -/
noncomputable def exA : Event Unit :=
  ⟨.undef, some ⟨.num (.fin 0.9995), .num (.fin 0)⟩, ()⟩

/-- Second of the pure-latitude pair. -/
noncomputable def exB : Event Unit :=
  ⟨.undef, some ⟨.num (.fin 2.0005), .num (.fin 0)⟩, ()⟩

/-- An event with the falsy identifier `0` and absent coordinates. -/
noncomputable def exBadId : Event Unit := ⟨.num (.fin 0), none, ()⟩

open Classical in
theorem validEvents_cons {P : Type} (e : Event P) (t : List (Event P)) :
    validEvents (e :: t) =
      if eventValid e then e :: validEvents t else validEvents t := by
  rw [validEvents, validEvents, List.filter_cons]
  by_cases h : eventValid e
  · simp [h]
  · simp [h]

theorem validEvents_nil {P : Type} :
    validEvents ([] : List (Event P)) = [] := rfl

open Classical in
theorem clusterWarnings_cons {P : Type} (e : Event P)
    (t : List (Event P)) :
    clusterWarnings (e :: t) =
      if eventValid e then clusterWarnings t
      else (if e.id.truthy then some e.id else none) :: clusterWarnings t := by
  rw [clusterWarnings, clusterWarnings, List.filter_cons]
  by_cases h : eventValid e
  · simp [h]
  · simp [h]

theorem clusterWarnings_nil {P : Type} :
    clusterWarnings ([] : List (Event P)) = [] := rfl

theorem exEvent1_valid : eventValid exEvent1 := by
  simp only [eventValid, exEvent1, isValidCoordinate, JSNum.jsLe]
  norm_num

theorem exA_valid : eventValid exA := by
  simp only [eventValid, exA, isValidCoordinate, JSNum.jsLe]
  norm_num

theorem exB_valid : eventValid exB := by
  simp only [eventValid, exB, isValidCoordinate, JSNum.jsLe]
  norm_num

theorem validEvents_ex1 : validEvents [exEvent1] = [exEvent1] := by
  rw [validEvents_cons, if_pos exEvent1_valid, validEvents_nil]

theorem validEvents_exAB : validEvents [exA, exB] = [exA, exB] := by
  rw [validEvents_cons, if_pos exA_valid, validEvents_cons,
    if_pos exB_valid, validEvents_nil]

theorem exRadius_cell : (JSNum.fin exRadius).mulPos degPerMeter =
    .fin 1 := by
  rw [JSNum.mulPos, exRadius, degPerMeter]
  norm_num

theorem exRadius_pos : 0 < exRadius := by
  rw [exRadius]
  norm_num

theorem cellAt_ex1 : cellAt [exEvent1] (.fin 1) 0 = (some 10, some 20) := by
  have hc : coordAt [exEvent1] 0 = ⟨10, 20⟩ := by
    simp [coordAt, coordOf, exEvent1]
  rw [cellAt, hc]
  simp only [cellCoord]
  norm_num

theorem cellAt_exA : cellAt [exA, exB] (.fin 1) 0 = (some 0, some 0) := by
  have hc : coordAt [exA, exB] 0 = ⟨0.9995, 0⟩ := by
    simp [coordAt, coordOf, exA]
  rw [cellAt, hc]
  simp only [cellCoord]
  norm_num [Int.floor_eq_iff]

theorem cellAt_exB : cellAt [exA, exB] (.fin 1) 1 = (some 2, some 0) := by
  have hc : coordAt [exA, exB] 1 = ⟨2.0005, 0⟩ := by
    simp [coordAt, coordOf, exB]
  rw [cellAt, hc]
  simp only [cellCoord]
  norm_num [Int.floor_eq_iff]

theorem dist_exA_exB :
    calculateDistance (coordOf exA) (coordOf exB) ≤ exRadius := by
  have hcA : coordOf exA = ⟨0.9995, 0⟩ := by simp [coordOf, exA]
  have hcB : coordOf exB = ⟨2.0005, 0⟩ := by simp [coordOf, exB]
  rw [hcA, hcB,
    calculateDistance_same_longitude 0.9995 2.0005 0 (by norm_num)
      (by norm_num),
    exRadius]
  nlinarith [Real.pi_lt_d6]

theorem find_init_one : (UnionFind.init 1).find 0 = (UnionFind.init 1, 0) := by
  rw [UnionFind.find]
  have hsz : (UnionFind.init 1).size = 1 := size_init 1
  rw [hsz]
  rw [show (1 : Nat) = 0 + 1 from rfl, UnionFind.findAux_succ]
  have hp : (UnionFind.init 1).p 0 = 0 := by
    simp [UnionFind.p, UnionFind.init, show List.range 1 = [0] from rfl]
  rw [if_pos hp]

theorem unionLoop_ex1 :
    unionLoop 1 (cellAt [exEvent1] (.fin 1))
      (nearAt [exEvent1] (.fin exRadius)) = UnionFind.init 1 := by
  rw [unionLoop, show List.range 1 = [0] from rfl, List.foldl_cons,
    List.foldl_nil]
  have hnear : getNearbyIndices
      (createGridIndex (cellAt [exEvent1] (.fin 1)) 1)
      (cellAt [exEvent1] (.fin 1) 0).1
      (cellAt [exEvent1] (.fin 1) 0).2 = [0] := by
    rw [cellAt_ex1]
    simp [getNearbyIndices, createGridIndex,
      show List.range 1 = [0] from rfl, List.filter_cons, cellAt_ex1]
  rw [hnear, List.foldl_cons, List.foldl_nil]
  simp

theorem clusterCore_ex1 :
    clusterCore 1 (cellAt [exEvent1] (.fin 1))
      (nearAt [exEvent1] (.fin exRadius)) (fun t => t) = [0] := by
  rw [clusterCore, unionLoop_ex1, show List.range 1 = [0] from rfl,
    List.foldl_cons, List.foldl_nil]
  have hstep : labelStep (fun t => t) (UnionFind.init 1, [], []) 0 =
      (UnionFind.init 1, [(0, 0)], [0]) := by
    simp only [labelStep]
    rw [find_init_one]
    rfl
  rw [hstep]

theorem clusterValid_ex1 :
    clusterValid (fun t => t) [exEvent1] (.fin exRadius) =
      [⟨exEvent1, 0⟩] := by
  rw [clusterValid, exRadius_cell]
  rw [show ([exEvent1] : List (Event Unit)).length = 1 from rfl]
  rw [clusterCore_ex1]
  rfl

theorem clusterEvents_ex1 :
    clusterEvents (fun t => t) (.array [exEvent1]) (.num (.fin exRadius)) =
      .ok [⟨exEvent1, 0⟩] := by
  have hnotle : ¬ JSNum.jsLe (.fin exRadius) (.fin 0) := by
    simp only [JSNum.jsLe]
    push_neg
    exact exRadius_pos
  simp only [clusterEvents]
  rw [if_neg hnotle]
  rw [show ([exEvent1] : List (Event Unit)).isEmpty = false from rfl]
  simp only [Bool.false_eq_true, if_false]
  rw [validEvents_ex1]
  rw [show ([exEvent1] : List (Event Unit)).isEmpty = false from rfl]
  simp only [Bool.false_eq_true, if_false]
  rw [clusterValid_ex1]

theorem p_init_two_zero : (UnionFind.init 2).p 0 = 0 := by
  simp [UnionFind.p, UnionFind.init, show List.range 2 = [0, 1] from rfl]

theorem p_init_two_one : (UnionFind.init 2).p 1 = 1 := by
  simp [UnionFind.p, UnionFind.init, show List.range 2 = [0, 1] from rfl]

theorem find_init_two_zero :
    (UnionFind.init 2).find 0 = (UnionFind.init 2, 0) := by
  rw [UnionFind.find, size_init]
  rw [show (2 : Nat) = 1 + 1 from rfl, UnionFind.findAux_succ]
  rw [if_pos p_init_two_zero]

theorem find_init_two_one :
    (UnionFind.init 2).find 1 = (UnionFind.init 2, 1) := by
  rw [UnionFind.find, size_init]
  rw [show (2 : Nat) = 1 + 1 from rfl, UnionFind.findAux_succ]
  rw [if_pos p_init_two_one]

theorem nearby_exA :
    getNearbyIndices (createGridIndex (cellAt [exA, exB] (.fin 1)) 2)
      (cellAt [exA, exB] (.fin 1) 0).1
      (cellAt [exA, exB] (.fin 1) 0).2 = [0] := by
  rw [cellAt_exA]
  simp [getNearbyIndices, createGridIndex,
    show List.range 2 = [0, 1] from rfl, List.filter_cons, cellAt_exA,
    cellAt_exB]

theorem nearby_exB :
    getNearbyIndices (createGridIndex (cellAt [exA, exB] (.fin 1)) 2)
      (cellAt [exA, exB] (.fin 1) 1).1
      (cellAt [exA, exB] (.fin 1) 1).2 = [1] := by
  rw [cellAt_exB]
  simp [getNearbyIndices, createGridIndex,
    show List.range 2 = [0, 1] from rfl, List.filter_cons, cellAt_exA,
    cellAt_exB]

theorem unionLoop_exAB :
    unionLoop 2 (cellAt [exA, exB] (.fin 1))
      (nearAt [exA, exB] (.fin exRadius)) = UnionFind.init 2 := by
  rw [unionLoop]
  simp only [show List.range 2 = [0, 1] from rfl, List.foldl_cons,
    List.foldl_nil]
  simp only [nearby_exA, nearby_exB]
  simp

theorem clusterCore_exAB :
    clusterCore 2 (cellAt [exA, exB] (.fin 1))
      (nearAt [exA, exB] (.fin exRadius)) (fun t => t) = [0, 1] := by
  rw [clusterCore, unionLoop_exAB, show List.range 2 = [0, 1] from rfl,
    List.foldl_cons]
  have hstep0 : labelStep (fun t => t) (UnionFind.init 2, [], []) 0 =
      (UnionFind.init 2, [(0, 0)], [0]) := by
    simp only [labelStep]
    rw [find_init_two_zero]
    rfl
  rw [hstep0, List.foldl_cons, List.foldl_nil]
  have hstep1 : labelStep (fun t => t) (UnionFind.init 2, [(0, 0)], [0])
      1 = (UnionFind.init 2, [(0, 0), (1, 1)], [0, 1]) := by
    simp only [labelStep]
    rw [find_init_two_one]
    rfl
  rw [hstep1]

theorem clusterValid_exAB :
    clusterValid (fun t => t) [exA, exB] (.fin exRadius) =
      [⟨exA, 0⟩, ⟨exB, 1⟩] := by
  rw [clusterValid, exRadius_cell]
  rw [show ([exA, exB] : List (Event Unit)).length = 2 from rfl]
  rw [clusterCore_exAB]
  rfl

theorem clusterEvents_exAB :
    clusterEvents (fun t => t) (.array [exA, exB])
      (.num (.fin exRadius)) = .ok [⟨exA, 0⟩, ⟨exB, 1⟩] := by
  have hnotle : ¬ JSNum.jsLe (.fin exRadius) (.fin 0) := by
    simp only [JSNum.jsLe]
    push_neg
    exact exRadius_pos
  simp only [clusterEvents]
  rw [if_neg hnotle]
  rw [show ([exA, exB] : List (Event Unit)).isEmpty = false from rfl]
  simp only [Bool.false_eq_true, if_false]
  rw [validEvents_exAB]
  rw [show ([exA, exB] : List (Event Unit)).isEmpty = false from rfl]
  simp only [Bool.false_eq_true, if_false]
  rw [clusterValid_exAB]

/-! ## Structural lemmas about the pipeline output -/

theorem clusterCore_length {L : Type} (n : Nat)
    (cell : Nat → Option ℤ × Option ℤ) (near : Nat → Nat → Bool)
    (gen : Nat → L) : (clusterCore n cell near gen).length = n := by
  rw [clusterCore_natural, List.length_map]
  exact (clusterCore_id_spec n cell near).1

theorem zipWith_event_map {P L : Type} :
    ∀ (es : List (Event P)) (ls : List L), es.length ≤ ls.length →
      (List.zipWith (fun e l => (⟨e, l⟩ : Clustered P L)) es ls).map
        Clustered.event = es := by
  intro es
  induction es with
  | nil => intro ls _; rfl
  | cons e es ih =>
    intro ls hlen
    match ls with
    | [] => simp at hlen
    | l :: ls =>
      simp only [List.zipWith_cons_cons, List.map_cons]
      rw [ih ls (by simpa using hlen)]

theorem zipWith_clusterId_get? {P L : Type} :
    ∀ (es : List (Event P)) (ls : List L) (k : Nat),
      es.length = ls.length →
      ((List.zipWith (fun e l => (⟨e, l⟩ : Clustered P L)) es ls).get?
        k).map Clustered.clusterId = ls.get? k := by
  intro es
  induction es with
  | nil =>
    intro ls k h
    match ls with
    | [] => simp
    | l :: ls => simp at h
  | cons e es ih =>
    intro ls k h
    match ls with
    | [] => simp at h
    | l :: ls =>
      match k with
      | 0 => rfl
      | k + 1 =>
        simp only [List.zipWith_cons_cons]
        exact ih ls k (by simpa using h)

theorem zipWith_clusterId_mem {P L : Type} (gen : Nat → L) :
    ∀ (es : List (Event P)) (raw : List Nat) (c : Clustered P L),
      c ∈ List.zipWith (fun e l => (⟨e, l⟩ : Clustered P L)) es
        (raw.map gen) → ∃ m, c.clusterId = gen m := by
  intro es
  induction es with
  | nil => intro raw c hc; simp at hc
  | cons e es ih =>
    intro raw c hc
    match raw with
    | [] => simp at hc
    | r :: raw =>
      simp only [List.map_cons, List.zipWith_cons_cons,
        List.mem_cons] at hc
      rcases hc with rfl | hc
      · exact ⟨r, rfl⟩
      · exact ih raw c hc

theorem clusterValid_map_event {P L : Type} (gen : Nat → L)
    (valid : List (Event P)) (radius : JSNum) :
    (clusterValid gen valid radius).map Clustered.event = valid := by
  rw [clusterValid]
  apply zipWith_event_map
  rw [clusterCore_length]

/-- Branch analysis of a successful `clusterEvents` call. -/
theorem clusterEvents_ok_shape {P L : Type} (gen : Nat → L)
    (evs : List (Event P)) (v : JSNum)
    (out : List (Clustered P L))
    (h : clusterEvents gen (.array evs) (.num v) = .ok out) :
    out.map Clustered.event = validEvents evs ∧
    (∀ c ∈ out, ∃ m, c.clusterId = gen m) ∧
    (validEvents evs = [] → out = []) ∧
    (validEvents evs ≠ [] →
      out = clusterValid gen (validEvents evs) v) := by
  simp only [clusterEvents] at h
  by_cases h0 : JSNum.jsLe v (.fin 0)
  · rw [if_pos h0] at h
    exact absurd h (by simp)
  · rw [if_neg h0] at h
    cases hemp : evs.isEmpty with
    | true =>
      rw [if_pos (by rw [hemp])] at h
      have hevs : evs = [] := List.isEmpty_iff.mp hemp
      have hout : out = [] := by
        have := h
        simp at this
        exact this
      subst hevs
      rw [hout, validEvents_nil]
      refine ⟨rfl, ?_, fun _ => rfl, fun hne => absurd rfl hne⟩
      intro c hc
      exact absurd hc (List.not_mem_nil c)
    | false =>
      rw [if_neg (by rw [hemp]; simp)] at h
      cases hvemp : (validEvents evs).isEmpty with
      | true =>
        rw [if_pos (by rw [hvemp])] at h
        have hv : validEvents evs = [] := List.isEmpty_iff.mp hvemp
        have hout : out = [] := by
          have := h
          simp at this
          exact this
        rw [hout, hv]
        refine ⟨rfl, ?_, fun _ => rfl, fun hne => absurd rfl hne⟩
        intro c hc
        exact absurd hc (List.not_mem_nil c)
      | false =>
        rw [if_neg (by rw [hvemp]; simp)] at h
        have hout : out = clusterValid gen (validEvents evs) v := by
          have := h
          simp at this
          exact this.symm
        have hv : validEvents evs ≠ [] := by
          intro hcon
          rw [hcon] at hvemp
          simp at hvemp
        refine ⟨?_, ?_, fun hcon => absurd hcon hv, fun _ => hout⟩
        · rw [hout, clusterValid_map_event]
        · intro c hc
          rw [hout, clusterValid, clusterCore_natural] at hc
          exact zipWith_clusterId_mem gen _ _ c hc

/-- `radius` is a JavaScript number. -/
def isNumber : JSVal → Prop
  | .num _ => True
  | _ => False

/-- (C3, amended) `clusterEvents` throws exactly when the events
argument is not an array, or the radius is not a number, or the radius
is a number that compares `<= 0` under JavaScript semantics.  A `NaN`
or `Infinity` radius is a number and does not compare `<= 0`, so such
calls do NOT throw. -/
theorem clusterEvents_error_iff {P L : Type} (gen : Nat → L)
    (events : EventsArg P) (radius : JSVal) :
    (∃ msg, clusterEvents gen events radius = .error msg) ↔
      (events = EventsArg.notArray ∨ ¬ isNumber radius ∨
        ∃ v, radius = .num v ∧ JSNum.jsLe v (.fin 0)) := by
  cases events with
  | notArray =>
    constructor
    · intro _
      exact Or.inl rfl
    · intro _
      exact ⟨"Events must be an array", rfl⟩
  | array evs =>
    cases radius with
    | num v =>
      constructor
      · rintro ⟨msg, hmsg⟩
        simp only [clusterEvents] at hmsg
        by_cases h0 : JSNum.jsLe v (.fin 0)
        · exact Or.inr (Or.inr ⟨v, rfl, h0⟩)
        · exfalso
          rw [if_neg h0] at hmsg
          cases hemp : evs.isEmpty with
          | true =>
            rw [if_pos (by rw [hemp])] at hmsg
            simp at hmsg
          | false =>
            rw [if_neg (by rw [hemp]; simp)] at hmsg
            cases hvemp : (validEvents evs).isEmpty with
            | true =>
              rw [if_pos (by rw [hvemp])] at hmsg
              simp at hmsg
            | false =>
              rw [if_neg (by rw [hvemp]; simp)] at hmsg
              simp at hmsg
      · rintro (hna | hnum | ⟨v', hv', hle⟩)
        · exact absurd hna (by simp)
        · exact absurd trivial (by simpa [isNumber] using hnum)
        · have hvv : v = v' := by
            have := hv'
            simp at this
            exact this
          refine ⟨"Radius must be a positive number", ?_⟩
          simp only [clusterEvents]
          rw [if_pos (hvv ▸ hle)]
    | str s =>
      constructor
      · intro _
        exact Or.inr (Or.inl (by simp [isNumber]))
      · intro _
        exact ⟨"Radius must be a positive number", rfl⟩
    | boolV b =>
      constructor
      · intro _
        exact Or.inr (Or.inl (by simp [isNumber]))
      · intro _
        exact ⟨"Radius must be a positive number", rfl⟩
    | nullV =>
      constructor
      · intro _
        exact Or.inr (Or.inl (by simp [isNumber]))
      · intro _
        exact ⟨"Radius must be a positive number", rfl⟩
    | undef =>
      constructor
      · intro _
        exact Or.inr (Or.inl (by simp [isNumber]))
      · intro _
        exact ⟨"Radius must be a positive number", rfl⟩
    | obj =>
      constructor
      · intro _
        exact Or.inr (Or.inl (by simp [isNumber]))
      · intro _
        exact ⟨"Radius must be a positive number", rfl⟩

/-- (C3, counterexample) A `NaN` radius and an `Infinity` radius do not
throw: the call completes normally, refuting the claim that every NaN
or infinite radius aborts the call. -/
theorem clusterEvents_nan_inf_no_throw :
    clusterEvents (fun t => t) (.array ([] : List (Event Unit)))
      (.num .nan) = .ok [] ∧
    clusterEvents (fun t => t) (.array ([] : List (Event Unit)))
      (.num .posInf) = .ok [] := by
  constructor <;>
  · simp only [clusterEvents]
    rw [if_neg (by simp [JSNum.jsLe])]
    simp

/-- (C7) `clusterEvents` never mutates the input (the embedding is
pure); every output element is a new object whose `event` component is
the corresponding valid input event, unchanged with every field, plus
the `clusterId`. -/
theorem clusterEvents_preserves_payload {P L : Type} (gen : Nat → L)
    (evs : List (Event P)) (radius : JSVal)
    (out : List (Clustered P L))
    (h : clusterEvents gen (.array evs) radius = .ok out) :
    out.map Clustered.event = validEvents evs := by
  cases radius with
  | num v => exact (clusterEvents_ok_shape gen evs v out h).1
  | str s => simp [clusterEvents] at h
  | boolV b => simp [clusterEvents] at h
  | nullV => simp [clusterEvents] at h
  | undef => simp [clusterEvents] at h
  | obj => simp [clusterEvents] at h

/-- Witness for C7 at a concrete one-event input. -/
theorem clusterEvents_preserves_payload_witness :
    clusterEvents (fun t => t) (.array [exEvent1])
      (.num (.fin exRadius)) = .ok [⟨exEvent1, 0⟩] ∧
    ([(⟨exEvent1, 0⟩ : Clustered Unit ℕ)].map Clustered.event =
      validEvents [exEvent1]) :=
  ⟨clusterEvents_ex1,
    clusterEvents_preserves_payload (fun t => t) [exEvent1]
      (.num (.fin exRadius)) [⟨exEvent1, 0⟩] clusterEvents_ex1⟩

theorem warnings_valid_length {P : Type} :
    ∀ evs : List (Event P),
      (clusterWarnings evs).length + (validEvents evs).length =
        evs.length := by
  intro evs
  induction evs with
  | nil => rfl
  | cons e t ih =>
    rw [clusterWarnings_cons, validEvents_cons]
    by_cases h : eventValid e
    · rw [if_pos h, if_pos h]
      simp only [List.length_cons]
      omega
    · rw [if_neg h, if_neg h]
      simp only [List.length_cons]
      omega

/-- (C6, amended) For a positive finite radius, every invalid event is
dropped and produces exactly one diagnostic without aborting the batch
(the diagnostic references the identifier only when it is truthy), and
the output has exactly one entry per valid input event, in input order,
each carrying a generated (never null) cluster label. -/
theorem clusterEvents_diagnostics {P L : Type} (gen : Nat → L)
    (evs : List (Event P)) (r : ℝ) (hr : 0 < r)
    (out : List (Clustered P L))
    (h : clusterEvents gen (.array evs) (.num (.fin r)) = .ok out) :
    out.map Clustered.event = validEvents evs ∧
    out.length = (validEvents evs).length ∧
    (clusterWarnings evs).length + (validEvents evs).length =
      evs.length ∧
    (∀ c ∈ out, ∃ m, c.clusterId = gen m) := by
  obtain ⟨h1, h2, _, _⟩ := clusterEvents_ok_shape gen evs (.fin r) out h
  refine ⟨h1, ?_, warnings_valid_length evs, h2⟩
  rw [← h1, List.length_map]

/-- Witness for C6 at a concrete one-event input. -/
theorem clusterEvents_diagnostics_witness :
    (0 : ℝ) < exRadius ∧
    ([(⟨exEvent1, 0⟩ : Clustered Unit ℕ)].map Clustered.event =
        validEvents [exEvent1] ∧
      [(⟨exEvent1, 0⟩ : Clustered Unit ℕ)].length =
        (validEvents [exEvent1]).length ∧
      (clusterWarnings [exEvent1]).length +
        (validEvents [exEvent1]).length =
          ([exEvent1] : List (Event Unit)).length ∧
      (∀ c ∈ [(⟨exEvent1, 0⟩ : Clustered Unit ℕ)],
        ∃ m, c.clusterId = (fun t => t) m)) :=
  ⟨exRadius_pos, clusterEvents_diagnostics (fun t => t) [exEvent1]
    exRadius exRadius_pos [⟨exEvent1, 0⟩] clusterEvents_ex1⟩

/-- (C6, counterexample) An event whose identifier is present but falsy
(the number `0`) gets a diagnostic that does not reference the
identifier, refuting "referencing the event's identifier when
present". -/
theorem clusterWarnings_falsy_id :
    exBadId.id = JSVal.num (.fin 0) ∧
    exBadId.id ≠ JSVal.undef ∧
    ¬ eventValid exBadId ∧
    clusterWarnings [exBadId] = [none] := by
  have hinvalid : ¬ eventValid exBadId := by
    simp [eventValid, exBadId, isValidCoordinate]
  refine ⟨rfl, by simp [exBadId], hinvalid, ?_⟩
  rw [clusterWarnings_cons, if_neg hinvalid,
    if_neg (by simp [exBadId, JSVal.truthy]), clusterWarnings_nil]

theorem clusterValid_clusterId_get? {P L : Type} (gen : Nat → L)
    (valid : List (Event P)) (v : JSNum) (k : Nat) :
    ((clusterValid gen valid v).get? k).map Clustered.clusterId =
      ((clusterCore valid.length
        (cellAt valid (v.mulPos degPerMeter)) (nearAt valid v)
        (fun t => t)).get? k).map gen := by
  rw [clusterValid, zipWith_clusterId_get? _ _ _
    (by rw [clusterCore_length]), clusterCore_natural, List.get?_map]

/-- (C8) Partition determinism: two calls on the same events and radius
with (injective) label generators induce the same grouping — two
output positions share a label in one call exactly when they share a
label in the other, whatever the label values. -/
theorem clusterEvents_partition_det {P : Type} {L1 L2 : Type}
    (gen1 : Nat → L1) (gen2 : Nat → L2)
    (hg1 : Function.Injective gen1) (hg2 : Function.Injective gen2)
    (evs : List (Event P)) (radius : JSVal)
    (out1 : List (Clustered P L1)) (out2 : List (Clustered P L2))
    (ho1 : clusterEvents gen1 (.array evs) radius = .ok out1)
    (ho2 : clusterEvents gen2 (.array evs) radius = .ok out2)
    (k l : Nat) (hk : k < out1.length) (hl : l < out1.length) :
    ((out1.get? k).map Clustered.clusterId =
        (out1.get? l).map Clustered.clusterId ↔
      (out2.get? k).map Clustered.clusterId =
        (out2.get? l).map Clustered.clusterId) := by
  cases radius with
  | str s => simp [clusterEvents] at ho1
  | boolV b => simp [clusterEvents] at ho1
  | nullV => simp [clusterEvents] at ho1
  | undef => simp [clusterEvents] at ho1
  | obj => simp [clusterEvents] at ho1
  | num v =>
    obtain ⟨_, _, hemp1, hval1⟩ := clusterEvents_ok_shape gen1 evs v
      out1 ho1
    obtain ⟨_, _, hemp2, hval2⟩ := clusterEvents_ok_shape gen2 evs v
      out2 ho2
    by_cases hv : validEvents evs = []
    · rw [hemp1 hv] at hk
      simp at hk
    · rw [hval1 hv, hval2 hv]
      set valid := validEvents evs with hvalid
      set raw := clusterCore valid.length
        (cellAt valid (v.mulPos degPerMeter)) (nearAt valid v)
        (fun t => t) with hraw
      have hrawlen : raw.length = valid.length := by
        rw [hraw, clusterCore_length]
      have hklt : k < raw.length := by
        rw [hval1 hv, clusterValid] at hk
        rw [hrawlen]
        simpa [clusterCore_length] using hk
      have hllt : l < raw.length := by
        rw [hval1 hv, clusterValid] at hl
        rw [hrawlen]
        simpa [clusterCore_length] using hl
      obtain ⟨rk, hrk⟩ : ∃ t, raw.get? k = some t :=
        ⟨raw.get ⟨k, hklt⟩, List.get?_eq_get hklt⟩
      obtain ⟨rl, hrl⟩ : ∃ t, raw.get? l = some t :=
        ⟨raw.get ⟨l, hllt⟩, List.get?_eq_get hllt⟩
      rw [clusterValid_clusterId_get?, clusterValid_clusterId_get?,
        clusterValid_clusterId_get?, clusterValid_clusterId_get?,
        ← hraw, hrk, hrl]
      simp only [Option.map_some']
      constructor
      · intro h
        have := hg1 (by simpa using h)
        rw [this]
      · intro h
        have := hg2 (by simpa using h)
        rw [this]

theorem clusterValid_ex1_succ :
    clusterValid (fun t => t + 1) [exEvent1] (.fin exRadius) =
      [⟨exEvent1, 1⟩] := by
  rw [clusterValid, exRadius_cell]
  rw [show ([exEvent1] : List (Event Unit)).length = 1 from rfl]
  rw [clusterCore_natural, clusterCore_ex1]
  rfl

theorem clusterEvents_ex1_succ :
    clusterEvents (fun t => t + 1) (.array [exEvent1])
      (.num (.fin exRadius)) = .ok [⟨exEvent1, 1⟩] := by
  have hnotle : ¬ JSNum.jsLe (.fin exRadius) (.fin 0) := by
    simp only [JSNum.jsLe]
    push_neg
    exact exRadius_pos
  simp only [clusterEvents]
  rw [if_neg hnotle]
  rw [show ([exEvent1] : List (Event Unit)).isEmpty = false from rfl]
  simp only [Bool.false_eq_true, if_false]
  rw [validEvents_ex1]
  rw [show ([exEvent1] : List (Event Unit)).isEmpty = false from rfl]
  simp only [Bool.false_eq_true, if_false]
  rw [clusterValid_ex1_succ]

/-- Witness for C8: two generators on the same concrete input. -/
theorem clusterEvents_partition_det_witness :
    Function.Injective (fun t : ℕ => t) ∧
    Function.Injective (fun t : ℕ => t + 1) ∧
    ((([(⟨exEvent1, 0⟩ : Clustered Unit ℕ)]).get? 0).map
        Clustered.clusterId =
      (([(⟨exEvent1, 0⟩ : Clustered Unit ℕ)]).get? 0).map
        Clustered.clusterId ↔
      (([(⟨exEvent1, 1⟩ : Clustered Unit ℕ)]).get? 0).map
        Clustered.clusterId =
      (([(⟨exEvent1, 1⟩ : Clustered Unit ℕ)]).get? 0).map
        Clustered.clusterId) :=
  ⟨fun a b h => h, fun a b h => Nat.add_right_cancel h,
    clusterEvents_partition_det (fun t => t) (fun t => t + 1)
      (fun a b h => h) (fun a b h => Nat.add_right_cancel h) [exEvent1]
      (.num (.fin exRadius)) [⟨exEvent1, 0⟩] [⟨exEvent1, 1⟩]
      clusterEvents_ex1 clusterEvents_ex1_succ 0 0 (by decide) (by decide)⟩

/-- The relation that `clusterEvents` actually unions: two distinct
valid indices whose grid cells are 3×3-adjacent and whose haversine
distance is at most the radius.  (Distance alone is NOT enough: the
cell-adjacency conjunct is genuinely restrictive, see the
counterexample.) -/
noncomputable def validNearRel {P : Type} (valid : List (Event P))
    (r : ℝ) (u v : Nat) : Prop :=
  u ≠ v ∧ u < valid.length ∧ v < valid.length ∧
  cellAdj (cellAt valid ((JSNum.fin r).mulPos degPerMeter) u)
    (cellAt valid ((JSNum.fin r).mulPos degPerMeter) v) ∧
  calculateDistance (coordAt valid u) (coordAt valid v) ≤ r

open Classical in
/-- (C1, amended) For every events array, positive finite radius and
injective label generator, two positions of the output carry the same
`clusterId` exactly when their valid events are connected —
transitively, not necessarily pairwise — through pairs at
haversine distance at most the radius (inclusive) whose grid cells are
also within one cell of each other in each axis. -/
theorem clusterEvents_label_iff {P L : Type} (gen : Nat → L)
    (hgen : Function.Injective gen) (evs : List (Event P)) (r : ℝ)
    (hr : 0 < r) (out : List (Clustered P L))
    (h : clusterEvents gen (.array evs) (.num (.fin r)) = .ok out)
    (k l : Nat) (hk : k < out.length) (hl : l < out.length) :
    ((out.get? k).map Clustered.clusterId =
        (out.get? l).map Clustered.clusterId ↔
      Conn (validNearRel (validEvents evs) r) k l) := by
  obtain ⟨_, _, hemp, hval⟩ := clusterEvents_ok_shape gen evs (.fin r)
    out h
  by_cases hv : validEvents evs = []
  · rw [hemp hv] at hk
    simp at hk
  · set valid := validEvents evs with hvalid
    set n := valid.length with hn
    set cellfn := cellAt valid ((JSNum.fin r).mulPos degPerMeter)
      with hcellfn
    set nearfn := nearAt valid (.fin r) with hnearfn
    set raw := clusterCore n cellfn nearfn (fun t => t) with hraw
    have hrawlen : raw.length = n := by rw [hraw, clusterCore_length]
    have hklt : k < n := by
      rw [hval hv, clusterValid] at hk
      simpa [clusterCore_length] using hk
    have hllt : l < n := by
      rw [hval hv, clusterValid] at hl
      simpa [clusterCore_length] using hl
    obtain ⟨rk, hrk⟩ : ∃ t, raw.get? k = some t :=
      ⟨raw.get ⟨k, by rw [hrawlen]; exact hklt⟩,
        List.get?_eq_get (by rw [hrawlen]; exact hklt)⟩
    obtain ⟨rl, hrl⟩ : ∃ t, raw.get? l = some t :=
      ⟨raw.get ⟨l, by rw [hrawlen]; exact hllt⟩,
        List.get?_eq_get (by rw [hrawlen]; exact hllt)⟩
    rw [hval hv]
    rw [clusterValid_clusterId_get?, clusterValid_clusterId_get?,
      ← hcellfn, ← hnearfn, ← hn, ← hraw, hrk, hrl]
    simp only [Option.map_some']
    have hlabels := (clusterCore_id_spec n cellfn nearfn).2.2 k l
      hklt hllt
    rw [← hraw, hrk, hrl] at hlabels
    obtain ⟨_, _, hconn⟩ := unionLoop_sameRoot n cellfn nearfn
      (nearAt_symm valid (.fin r))
    have hgenstep : some (gen rk) = some (gen rl) ↔ rk = rl := by
      constructor
      · intro hh
        exact hgen (by simpa using hh)
      · intro hh
        rw [hh]
    rw [hgenstep]
    have hrawstep : rk = rl ↔
        sameRoot (unionLoop n cellfn nearfn) k l := by
      rw [← hlabels]
      constructor
      · intro hh
        rw [hh]
      · intro hh
        simpa using hh
    rw [hrawstep, hconn k l]
    constructor
    · refine Conn.bind ?_
      rintro u v ⟨hne, hu, hvlt, hadj, hnear⟩
      refine Conn.base ⟨hne, hu, hvlt, hadj, ?_⟩
      have := of_decide_eq_true hnear
      simpa [JSNum.jsLe] using this
    · refine Conn.bind ?_
      rintro u v ⟨hne, hu, hvlt, hadj, hdist⟩
      refine Conn.base ⟨hne, hu, hvlt, hadj, ?_⟩
      rw [hnearfn, nearAt]
      exact decide_eq_true (by simpa [JSNum.jsLe] using hdist)

/-- Witness for C1 (amended) at a concrete one-event input. -/
theorem clusterEvents_label_iff_witness :
    Function.Injective (fun t : ℕ => t) ∧ (0 : ℝ) < exRadius ∧
    ((([(⟨exEvent1, 0⟩ : Clustered Unit ℕ)]).get? 0).map
        Clustered.clusterId =
      (([(⟨exEvent1, 0⟩ : Clustered Unit ℕ)]).get? 0).map
        Clustered.clusterId ↔
      Conn (validNearRel (validEvents [exEvent1]) exRadius) 0 0) :=
  ⟨fun a b h => h, exRadius_pos,
    clusterEvents_label_iff (fun t => t) (fun a b h => h) [exEvent1]
      exRadius exRadius_pos [⟨exEvent1, 0⟩] clusterEvents_ex1 0 0
      (by simp) (by simp)⟩

/-- (C1, counterexample) Two valid events at haversine distance at most
the radius — hence in the same connected component of the claim's
within-radius relation (a single direct edge) — receive distinct
`clusterId`s, because their grid rows are two apart and the pair is
never compared. -/
theorem clusterEvents_within_radius_distinct_ids :
    clusterEvents (fun t => t) (.array [exA, exB])
      (.num (.fin exRadius)) = .ok [⟨exA, 0⟩, ⟨exB, 1⟩] ∧
    calculateDistance (coordAt (validEvents [exA, exB]) 0)
      (coordAt (validEvents [exA, exB]) 1) ≤ exRadius ∧
    Conn (fun u v => u < (validEvents [exA, exB]).length ∧
      v < (validEvents [exA, exB]).length ∧
      calculateDistance (coordAt (validEvents [exA, exB]) u)
        (coordAt (validEvents [exA, exB]) v) ≤ exRadius) 0 1 ∧
    (⟨exA, 0⟩ : Clustered Unit ℕ).clusterId ≠
      (⟨exB, 1⟩ : Clustered Unit ℕ).clusterId := by
  have h0 : coordAt (validEvents [exA, exB]) 0 = coordOf exA := by
    rw [validEvents_exAB]
    simp [coordAt]
  have h1 : coordAt (validEvents [exA, exB]) 1 = coordOf exB := by
    rw [validEvents_exAB]
    simp [coordAt]
  have hdist : calculateDistance (coordAt (validEvents [exA, exB]) 0)
      (coordAt (validEvents [exA, exB]) 1) ≤ exRadius := by
    rw [h0, h1]
    exact dist_exA_exB
  have hlen : (validEvents [exA, exB]).length = 2 := by
    rw [validEvents_exAB]
    rfl
  refine ⟨clusterEvents_exAB, hdist, ?_, by simp⟩
  refine Conn.base ⟨?_, ?_, hdist⟩
  · rw [hlen]
    norm_num
  · rw [hlen]
    norm_num

/-- Cells of points whose coordinate differs by less than the cell size
are at most one apart. -/
theorem cellCoord_close (x y d : ℝ) (hd : 0 < d) (hxy : |x - y| < d) :
    ∃ a b : ℤ, cellCoord x (.fin d) = some a ∧
      cellCoord y (.fin d) = some b ∧ (a - b).natAbs ≤ 1 := by
  refine ⟨⌊x / d⌋, ⌊y / d⌋, rfl, rfl, ?_⟩
  obtain ⟨hxy1, hxy2⟩ := abs_lt.mp hxy
  have h1 : x / d ≤ y / d + 1 := by
    have hx : x ≤ y + d := by linarith
    calc x / d ≤ (y + d) / d := by gcongr
    _ = y / d + 1 := by field_simp
  have h2 : y / d ≤ x / d + 1 := by
    have hy : y ≤ x + d := by linarith
    calc y / d ≤ (x + d) / d := by gcongr
    _ = x / d + 1 := by field_simp
  have hf1 : ⌊x / d⌋ ≤ ⌊y / d⌋ + 1 := by
    have := Int.floor_mono h1
    rwa [Int.floor_add_one] at this
  have hf2 : ⌊y / d⌋ ≤ ⌊x / d⌋ + 1 := by
    have := Int.floor_mono h2
    rwa [Int.floor_add_one] at this
  omega

/-- (C2, amended) If two valid points' latitudes and longitudes each
differ by less than `degreesPerCell` then their grid cells differ by at
most 1 in row and in column, and the 3×3 neighbourhood query centred on
the first point's cell returns the second point.  (A haversine distance
at most the radius does NOT imply this premise — see the
counterexample — because a grid cell is slightly smaller than the
radius, and longitude degrees shrink with latitude.) -/
theorem grid_adjacent_of_close (lat1 lon1 lat2 lon2 d : ℝ)
    (hd : 0 < d) (hlat : |lat1 - lat2| < d) (hlon : |lon1 - lon2| < d) :
    ∃ r1 c1 r2 c2 : ℤ,
      cellCoord lat1 (.fin d) = some r1 ∧
      cellCoord lon1 (.fin d) = some c1 ∧
      cellCoord lat2 (.fin d) = some r2 ∧
      cellCoord lon2 (.fin d) = some c2 ∧
      (r1 - r2).natAbs ≤ 1 ∧ (c1 - c2).natAbs ≤ 1 ∧
      cellAdj (some r1, some c1) (some r2, some c2) ∧
      (∀ (cell : Nat → Option ℤ × Option ℤ) (n i j : Nat), j < n →
        cell i = (some r1, some c1) → cell j = (some r2, some c2) →
        j ∈ getNearbyIndices (createGridIndex cell n)
          (some r1) (some c1)) := by
  obtain ⟨r1, r2, hr1, hr2, hrow⟩ := cellCoord_close lat1 lat2 d hd hlat
  obtain ⟨c1, c2, hc1, hc2, hcol⟩ := cellCoord_close lon1 lon2 d hd hlon
  have hdi : (r2 - r1) ∈ ([-1, 0, 1] : List ℤ) := by
    have : r2 - r1 = -1 ∨ r2 - r1 = 0 ∨ r2 - r1 = 1 := by omega
    simpa using this
  have hdj : (c2 - c1) ∈ ([-1, 0, 1] : List ℤ) := by
    have : c2 - c1 = -1 ∨ c2 - c1 = 0 ∨ c2 - c1 = 1 := by omega
    simpa using this
  have hadj : cellAdj (some r1, some c1) (some r2, some c2) := by
    refine ⟨r2 - r1, c2 - c1, hdi, hdj, ?_⟩
    simp only [Option.map_some']
    rw [Prod.mk.injEq]
    constructor
    · rw [Option.some.injEq]
      ring
    · rw [Option.some.injEq]
      ring
  refine ⟨r1, c1, r2, c2, hr1, hc1, hr2, hc2, hrow, hcol, hadj, ?_⟩
  intro cell n i j hj hci hcj
  rw [mem_getNearbyIndices]
  refine ⟨r2 - r1, hdi, c2 - c1, hdj, ?_⟩
  rw [mem_createGridIndex]
  refine ⟨hj, ?_⟩
  rw [hcj]
  simp only [Option.map_some']
  rw [Prod.mk.injEq]
  constructor
  · rw [Option.some.injEq]
    ring
  · rw [Option.some.injEq]
    ring

/-- Witness for C2 (amended) at concrete coordinates. -/
theorem grid_adjacent_of_close_witness :
    (0 : ℝ) < 1 ∧ |(0.3 : ℝ) - 0.9| < 1 ∧ |(0.2 : ℝ) - 0.1| < 1 ∧
    (∃ r1 c1 r2 c2 : ℤ,
      cellCoord 0.3 (.fin 1) = some r1 ∧
      cellCoord 0.2 (.fin 1) = some c1 ∧
      cellCoord 0.9 (.fin 1) = some r2 ∧
      cellCoord 0.1 (.fin 1) = some c2 ∧
      (r1 - r2).natAbs ≤ 1 ∧ (c1 - c2).natAbs ≤ 1 ∧
      cellAdj (some r1, some c1) (some r2, some c2) ∧
      (∀ (cell : Nat → Option ℤ × Option ℤ) (n i j : Nat), j < n →
        cell i = (some r1, some c1) → cell j = (some r2, some c2) →
        j ∈ getNearbyIndices (createGridIndex cell n)
          (some r1) (some c1))) :=
  ⟨by norm_num, by rw [abs_lt]; norm_num, by rw [abs_lt]; norm_num,
    grid_adjacent_of_close 0.3 0.2 0.9 0.1 1 (by norm_num)
      (by rw [abs_lt]; norm_num) (by rw [abs_lt]; norm_num)⟩

/-- (C2, counterexample) A pure-latitude pair at haversine distance at
most the radius whose grid rows are two apart: the 3×3 neighbourhood
query centred on the first point's own cell misses the second point. -/
theorem grid_rows_two_apart_within_radius :
    calculateDistance (coordOf exA) (coordOf exB) ≤ exRadius ∧
    (JSNum.fin exRadius).mulPos degPerMeter = .fin 1 ∧
    cellCoord (coordOf exA).latitude (.fin 1) = some 0 ∧
    cellCoord (coordOf exB).latitude (.fin 1) = some 2 ∧
    ¬ (((0 : ℤ) - 2).natAbs ≤ 1) ∧
    1 ∉ getNearbyIndices (createGridIndex (cellAt [exA, exB] (.fin 1)) 2)
      (some 0) (some 0) := by
  have hA : cellCoord (coordOf exA).latitude (.fin 1) = some 0 := by
    have : (coordOf exA).latitude = 0.9995 := by simp [coordOf, exA]
    rw [this]
    simp only [cellCoord]
    norm_num [Int.floor_eq_iff]
  have hB : cellCoord (coordOf exB).latitude (.fin 1) = some 2 := by
    have : (coordOf exB).latitude = 2.0005 := by simp [coordOf, exB]
    rw [this]
    simp only [cellCoord]
    norm_num [Int.floor_eq_iff]
  have hmem : getNearbyIndices
      (createGridIndex (cellAt [exA, exB] (.fin 1)) 2)
      (some 0) (some 0) = [0] := by
    have := nearby_exA
    rw [cellAt_exA] at this
    exact this
  refine ⟨dist_exA_exB, exRadius_cell, hA, hB, by decide, ?_⟩
  rw [hmem]
  decide

/-! ## The geocoding LRU cache (`src/services/geocoding/LRUCache.ts`)

The backing `Map` is modelled as a list of key/value pairs in `Map`
iteration order: the head is the oldest (least recently used) entry,
`set` on a fresh key appends at the end, and the `delete`/re-`set`
dance of `get`/`set` moves an entry to the end. -/

/-- `cache.has(k)` on the backing map. -/
def hasKey {K V : Type} [DecidableEq K] (c : List (K × V)) (k : K) :
    Bool :=
  c.any (fun e => decide (e.1 = k))

/-- `cache.get(k)` on the backing map. -/
def getVal {K V : Type} [DecidableEq K] (c : List (K × V)) (k : K) :
    Option V :=
  match c.find? (fun e => decide (e.1 = k)) with
  | some e => some e.2
  | none => none

/-- `cache.delete(k)` on the backing map (keys are unique in a `Map`,
so removing every pair with key `k` removes exactly the entry, if
any). -/
def eraseKey {K V : Type} [DecidableEq K] (c : List (K × V)) (k : K) :
    List (K × V) :=
  c.filter (fun e => decide (e.1 ≠ k))

/-- The LRU cache state. -/
structure LRUCache (K V : Type) where
  cache : List (K × V)
  capacity : Nat

/-- `new LRUCache(capacity)`. -/
def LRUCache.empty {K V : Type} (capacity : Nat) : LRUCache K V :=
  ⟨[], capacity⟩

/-- `size()`. -/
def LRUCache.size {K V : Type} (c : LRUCache K V) : Nat :=
  c.cache.length

/-- `get(key)`: on a hit, delete and re-insert to mark the entry most
recently used. -/
def LRUCache.get {K V : Type} [DecidableEq K] (c : LRUCache K V)
    (k : K) : LRUCache K V × Option V :=
  match getVal c.cache k with
  | none => (c, none)
  | some v => (⟨eraseKey c.cache k ++ [(k, v)], c.capacity⟩, some v)

/-- `set(key, value)`: delete an existing entry for the key; otherwise,
when at capacity, remove the first (least recently used) entry; then
insert at the most-recently-used end. -/
def LRUCache.set {K V : Type} [DecidableEq K] (c : LRUCache K V)
    (k : K) (v : V) : LRUCache K V :=
  if hasKey c.cache k then ⟨eraseKey c.cache k ++ [(k, v)], c.capacity⟩
  else if c.capacity ≤ c.cache.length then
    ⟨c.cache.drop 1 ++ [(k, v)], c.capacity⟩
  else ⟨c.cache ++ [(k, v)], c.capacity⟩

/-- `delete(key)`. -/
def LRUCache.del {K V : Type} [DecidableEq K] (c : LRUCache K V)
    (k : K) : LRUCache K V :=
  ⟨eraseKey c.cache k, c.capacity⟩

/-- One cache operation. -/
inductive CacheOp (K V : Type) where
  | getOp (k : K)
  | setOp (k : K) (v : V)
  | delOp (k : K)

def applyCacheOp {K V : Type} [DecidableEq K] (c : LRUCache K V)
    (op : CacheOp K V) : LRUCache K V :=
  match op with
  | .getOp k => (c.get k).1
  | .setOp k v => c.set k v
  | .delOp k => c.del k

/-- The cache state after a sequence of operations on a fresh cache. -/
def runCache {K V : Type} [DecidableEq K] (cap : Nat)
    (ops : List (CacheOp K V)) : LRUCache K V :=
  ops.foldl applyCacheOp (LRUCache.empty cap)

/-- Operation `i` of the history refreshes the recency of key `k`: it
is a `set` of `k`, or a `get` of `k` that hits the cache at that
moment. -/
def refreshes {K V : Type} [DecidableEq K] (cap : Nat)
    (ops : List (CacheOp K V)) (i : Nat) (k : K) : Bool :=
  match ops.get? i with
  | some (.setOp k' _) => decide (k' = k)
  | some (.getOp k') =>
      decide (k' = k) && hasKey (runCache cap (ops.take i)).cache k
  | _ => false

/-- The index of the last operation that refreshed `k`
(`0` when `k` was never refreshed). -/
def lastUse {K V : Type} [DecidableEq K] (cap : Nat)
    (ops : List (CacheOp K V)) (k : K) : Nat :=
  Nat.findGreatest (fun i => refreshes cap ops i k = true) ops.length

theorem findGreatest_congr (P Q : ℕ → Prop) [DecidablePred P]
    [DecidablePred Q] (n : ℕ) (h : ∀ i, i ≤ n → (P i ↔ Q i)) :
    Nat.findGreatest P n = Nat.findGreatest Q n := by
  induction n with
  | zero => rfl
  | succ n ih =>
    rw [Nat.findGreatest_succ, Nat.findGreatest_succ]
    by_cases hp : P (n + 1)
    · rw [if_pos hp, if_pos ((h _ le_rfl).mp hp)]
    · rw [if_neg hp, if_neg (fun hq => hp ((h _ le_rfl).mpr hq)),
        ih (fun i hi => h i (le_trans hi (Nat.le_succ n)))]

theorem refreshes_lt {K V : Type} [DecidableEq K] (cap : Nat)
    (ops : List (CacheOp K V)) (i : Nat) (k : K)
    (h : refreshes cap ops i k = true) : i < ops.length := by
  by_contra hge
  have hnone : ops.get? i = none :=
    List.get?_eq_none.mpr (not_lt.mp hge)
  rw [refreshes, hnone] at h
  exact absurd h (by simp)

theorem refreshes_append {K V : Type} [DecidableEq K] (cap : Nat)
    (ops : List (CacheOp K V)) (op : CacheOp K V) (i : Nat) (k : K)
    (hi : i < ops.length) :
    refreshes cap (ops ++ [op]) i k = refreshes cap ops i k := by
  rw [refreshes, refreshes, List.get?_append hi,
    List.take_append_of_le_length (le_of_lt hi)]

theorem refreshes_last {K V : Type} [DecidableEq K] (cap : Nat)
    (ops : List (CacheOp K V)) (op : CacheOp K V) (k : K) :
    refreshes cap (ops ++ [op]) ops.length k =
      (match op with
        | .setOp k' _ => decide (k' = k)
        | .getOp k' =>
            decide (k' = k) && hasKey (runCache cap ops).cache k
        | .delOp _ => false) := by
  rw [refreshes, List.get?_concat_length, List.take_left]
  match op with
  | .setOp k' v => rfl
  | .getOp k' => rfl
  | .delOp k' => rfl

theorem lastUse_append {K V : Type} [DecidableEq K] (cap : Nat)
    (ops : List (CacheOp K V)) (op : CacheOp K V) (k : K) :
    lastUse cap (ops ++ [op]) k =
      if refreshes cap (ops ++ [op]) ops.length k = true then ops.length
      else lastUse cap ops k := by
  rw [lastUse, List.length_append]
  simp only [List.length_cons, List.length_nil]
  rw [Nat.findGreatest_succ]
  have hout : ¬ refreshes cap (ops ++ [op]) (ops.length + 1) k = true := by
    intro h
    have := refreshes_lt _ _ _ _ h
    simp at this
  rw [if_neg hout]
  by_cases hlen : refreshes cap (ops ++ [op]) ops.length k = true
  · rw [if_pos hlen]
    exact Nat.findGreatest_eq hlen
  · rw [if_neg hlen, lastUse]
    apply findGreatest_congr
    intro i hi
    rcases lt_or_eq_of_le hi with hlt | heq
    · rw [refreshes_append cap ops op i k hlt]
    · subst heq
      constructor
      · intro h
        exact absurd h hlen
      · intro h
        exact absurd (refreshes_lt _ _ _ _ h) (lt_irrefl _)

theorem hasKey_iff_getVal {K V : Type} [DecidableEq K]
    (c : List (K × V)) (k : K) :
    hasKey c k = true ↔ ∃ v, getVal c k = some v := by
  rw [hasKey, List.any_eq_true]
  constructor
  · rintro ⟨e, he, hp⟩
    have : (c.find? (fun e => decide (e.1 = k))).isSome := by
      rw [List.find?_isSome]
      exact ⟨e, he, hp⟩
    rw [getVal]
    cases hf : c.find? (fun e => decide (e.1 = k)) with
    | none => rw [hf] at this; simp at this
    | some e' => exact ⟨e'.2, rfl⟩
  · rintro ⟨v, hv⟩
    rw [getVal] at hv
    cases hf : c.find? (fun e => decide (e.1 = k)) with
    | none => rw [hf] at hv; simp at hv
    | some e' =>
      have hmem := List.mem_of_find?_eq_some hf
      have hp := List.find?_some hf
      exact ⟨e', hmem, hp⟩

theorem hasKey_false_ne {K V : Type} [DecidableEq K]
    (c : List (K × V)) (k : K) (h : hasKey c k = false) :
    ∀ e ∈ c, e.1 ≠ k := by
  intro e he
  rw [hasKey, List.any_eq_false] at h
  have := h e he
  simpa using this

theorem mem_eraseKey_ne {K V : Type} [DecidableEq K]
    (c : List (K × V)) (k : K) :
    ∀ e ∈ eraseKey c k, e.1 ≠ k := by
  intro e he
  rw [eraseKey] at he
  have := List.of_mem_filter he
  simpa using this

theorem eraseKey_sublist {K V : Type} [DecidableEq K]
    (c : List (K × V)) (k : K) : (eraseKey c k).Sublist c :=
  List.filter_sublist c

theorem length_eraseKey_lt {K V : Type} [DecidableEq K]
    (c : List (K × V)) (k : K) (h : hasKey c k = true) :
    (eraseKey c k).length < c.length := by
  rw [hasKey, List.any_eq_true] at h
  obtain ⟨e, he, hp⟩ := h
  rw [eraseKey]
  refine List.length_filter_lt_length_iff_exists.mpr ?_
  exact ⟨e, he, by simpa using hp⟩

/-- The LRU invariant: keys are unique, the size never exceeds the
capacity, every cached key really was refreshed at its `lastUse` index,
and the entries are listed in strictly increasing order of last use
(head = least recently used). -/
def CacheInv {K V : Type} [DecidableEq K] (cap : Nat)
    (ops : List (CacheOp K V)) : Prop :=
  ((runCache cap ops).cache.map Prod.fst).Nodup ∧
  (runCache cap ops).cache.length ≤ cap ∧
  (∀ e ∈ (runCache cap ops).cache,
    refreshes cap ops (lastUse cap ops e.1) e.1 = true) ∧
  List.Pairwise (fun a b => lastUse cap ops a < lastUse cap ops b)
    ((runCache cap ops).cache.map Prod.fst)

theorem runCache_append_singleton {K V : Type} [DecidableEq K]
    (cap : Nat) (ops : List (CacheOp K V)) (op : CacheOp K V) :
    runCache cap (ops ++ [op]) = applyCacheOp (runCache cap ops) op := by
  rw [runCache, runCache, List.foldl_append, List.foldl_cons,
    List.foldl_nil]

theorem capacity_applyCacheOp {K V : Type} [DecidableEq K]
    (c : LRUCache K V) (op : CacheOp K V) :
    (applyCacheOp c op).capacity = c.capacity := by
  match op with
  | .getOp k =>
    rw [applyCacheOp, LRUCache.get]
    cases hv : getVal c.cache k <;> rfl
  | .setOp k v =>
    rw [applyCacheOp, LRUCache.set]
    by_cases h : hasKey c.cache k = true
    · rw [if_pos h]
    · rw [if_neg h]
      by_cases h2 : c.capacity ≤ c.cache.length
      · rw [if_pos h2]
      · rw [if_neg h2]
  | .delOp k => rfl

theorem capacity_runCache {K V : Type} [DecidableEq K] (cap : Nat)
    (ops : List (CacheOp K V)) : (runCache cap ops).capacity = cap := by
  induction ops using List.reverseRecOn with
  | nil => rfl
  | append_singleton ops op ih =>
    rw [runCache_append_singleton, capacity_applyCacheOp]
    exact ih

theorem lastUse_lt_of_inv {K V : Type} [DecidableEq K] {cap : Nat}
    {ops : List (CacheOp K V)} (hInv : CacheInv cap ops) :
    ∀ e ∈ (runCache cap ops).cache, lastUse cap ops e.1 < ops.length :=
  fun e he => refreshes_lt _ _ _ _ (hInv.2.2.1 e he)

/-- Invariant step for an operation that refreshes nothing and only
removes entries. -/
theorem inv_keep_step {K V : Type} [DecidableEq K] {cap : Nat}
    {ops : List (CacheOp K V)} {op : CacheOp K V}
    (hInv : CacheInv cap ops)
    (hrest : (runCache cap (ops ++ [op])).cache.Sublist
      (runCache cap ops).cache)
    (hnoref : ∀ k', refreshes cap (ops ++ [op]) ops.length k' = false) :
    CacheInv cap (ops ++ [op]) := by
  have hlastf : lastUse cap (ops ++ [op]) = lastUse cap ops := by
    funext k'
    rw [lastUse_append, if_neg (by simp [hnoref])]
  have hlt := lastUse_lt_of_inv hInv
  refine ⟨?_, ?_, ?_, ?_⟩
  · exact (hInv.1).sublist (hrest.map Prod.fst)
  · exact le_trans hrest.length_le hInv.2.1
  · intro e he
    have hmem : e ∈ (runCache cap ops).cache := hrest.subset he
    rw [hlastf, refreshes_append cap ops op _ _ (hlt e hmem)]
    exact hInv.2.2.1 e hmem
  · rw [hlastf]
    exact (hInv.2.2.2).sublist (hrest.map Prod.fst)

/-- Invariant step for an operation that refreshes exactly the key `k`
and moves/inserts it at the most-recently-used end. -/
theorem inv_insert_step {K V : Type} [DecidableEq K] {cap : Nat}
    {ops : List (CacheOp K V)} {op : CacheOp K V} {k : K} {v : V}
    {rest : List (K × V)} (hInv : CacheInv cap ops)
    (hsub : rest.Sublist (runCache cap ops).cache)
    (hnk : ∀ e ∈ rest, e.1 ≠ k)
    (hlen : rest.length + 1 ≤ cap)
    (hcache : (runCache cap (ops ++ [op])).cache = rest ++ [(k, v)])
    (hself : refreshes cap (ops ++ [op]) ops.length k = true)
    (hother : ∀ k', k' ≠ k →
      refreshes cap (ops ++ [op]) ops.length k' = false) :
    CacheInv cap (ops ++ [op]) := by
  have hlastk : lastUse cap (ops ++ [op]) k = ops.length := by
    rw [lastUse_append, if_pos hself]
  have hlastother : ∀ k', k' ≠ k →
      lastUse cap (ops ++ [op]) k' = lastUse cap ops k' := by
    intro k' hk'
    rw [lastUse_append, if_neg (by simp [hother k' hk'])]
  have hlt := lastUse_lt_of_inv hInv
  have hknotin : k ∉ rest.map Prod.fst := by
    intro hmem
    obtain ⟨e, he, heq⟩ := List.mem_map.mp hmem
    exact hnk e he heq
  refine ⟨?_, ?_, ?_, ?_⟩
  · rw [hcache, List.map_append]
    refine List.Nodup.append ((hInv.1).sublist (hsub.map Prod.fst))
      (List.nodup_singleton k) ?_
    intro a ha hb
    have : a = k := by simpa using hb
    rw [this] at ha
    exact hknotin ha
  · rw [hcache, List.length_append]
    simpa using hlen
  · intro e he
    rw [hcache, List.mem_append] at he
    rcases he with he | he
    · have hne := hnk e he
      have hmem : e ∈ (runCache cap ops).cache := hsub.subset he
      rw [hlastother e.1 hne,
        refreshes_append cap ops op _ _ (hlt e hmem)]
      exact hInv.2.2.1 e hmem
    · have : e = (k, v) := by simpa using he
      rw [this]
      simpa [hlastk] using hself
  · rw [hcache, List.map_append]
    rw [List.pairwise_append]
    refine ⟨?_, List.pairwise_singleton _ _, ?_⟩
    · have hpw : List.Pairwise
          (fun a b => lastUse cap ops a < lastUse cap ops b)
          (rest.map Prod.fst) :=
        (hInv.2.2.2).sublist (hsub.map Prod.fst)
      refine hpw.imp_of_mem ?_
      intro a b ha hb hab
      obtain ⟨ea, hea, heqa⟩ := List.mem_map.mp ha
      obtain ⟨eb, heb, heqb⟩ := List.mem_map.mp hb
      rw [hlastother a (heqa ▸ hnk ea hea),
        hlastother b (heqb ▸ hnk eb heb)]
      exact hab
    · intro a ha b hb
      have hbk : b = k := by simpa using hb
      obtain ⟨ea, hea, heqa⟩ := List.mem_map.mp ha
      rw [hbk, hlastk, hlastother a (heqa ▸ hnk ea hea)]
      have hmem : ea ∈ (runCache cap ops).cache := hsub.subset hea
      rw [← heqa]
      exact hlt ea hmem

/-- The invariant holds after any operation sequence. -/
theorem cacheInv_runCache {K V : Type} [DecidableEq K] (cap : Nat)
    (hcap : 1 ≤ cap) (ops : List (CacheOp K V)) : CacheInv cap ops := by
  induction ops using List.reverseRecOn with
  | nil =>
    refine ⟨by simp [runCache, LRUCache.empty], ?_, ?_, ?_⟩
    · simp [runCache, LRUCache.empty]
    · intro e he
      simp [runCache, LRUCache.empty] at he
    · simp [runCache, LRUCache.empty]
  | append_singleton ops op ih =>
    have hstep := runCache_append_singleton cap ops op
    match op with
    | .delOp k =>
      refine inv_keep_step ih ?_ ?_
      · rw [hstep]
        exact eraseKey_sublist _ _
      · intro k'
        rw [refreshes_last]
    | .getOp k =>
      cases hv : getVal (runCache cap ops).cache k with
      | none =>
        have hhk : hasKey (runCache cap ops).cache k = false := by
          cases hhk : hasKey (runCache cap ops).cache k with
          | false => rfl
          | true =>
            obtain ⟨v, hv'⟩ := (hasKey_iff_getVal _ _).mp hhk
            rw [hv] at hv'
            exact absurd hv' (by simp)
        refine inv_keep_step ih ?_ ?_
        · rw [hstep]
          have : applyCacheOp (runCache cap ops) (.getOp k) =
              runCache cap ops := by
            rw [applyCacheOp, LRUCache.get, hv]
          rw [this]
        · intro k'
          rw [refreshes_last]
          by_cases hk' : k = k'
          · subst hk'
            simp [hhk]
          · simp [hk']
      | some v =>
        have hhk : hasKey (runCache cap ops).cache k = true :=
          (hasKey_iff_getVal _ _).mpr ⟨v, hv⟩
        have hc : (runCache cap (ops ++ [CacheOp.getOp k])).cache =
            eraseKey (runCache cap ops).cache k ++ [(k, v)] := by
          rw [hstep]
          have : applyCacheOp (runCache cap ops) (.getOp k) =
              ⟨eraseKey (runCache cap ops).cache k ++ [(k, v)],
                (runCache cap ops).capacity⟩ := by
            rw [applyCacheOp, LRUCache.get, hv]
          rw [this]
        refine inv_insert_step ih
          (eraseKey_sublist (runCache cap ops).cache k)
          (mem_eraseKey_ne (runCache cap ops).cache k) ?_ hc ?_ ?_
        · have h1 := length_eraseKey_lt _ _ hhk
          have h2 := ih.2.1
          omega
        · rw [refreshes_last]
          simp [hhk]
        · intro k' hk'
          rw [refreshes_last]
          simp [Ne.symm hk']
    | .setOp k v =>
      have hself : refreshes cap (ops ++ [.setOp k v]) ops.length k =
          true := by
        rw [refreshes_last]
        simp
      have hother : ∀ k', k' ≠ k →
          refreshes cap (ops ++ [.setOp k v]) ops.length k' = false := by
        intro k' hk'
        rw [refreshes_last]
        simp [Ne.symm hk']
      by_cases hhk : hasKey (runCache cap ops).cache k = true
      · have hc : (runCache cap (ops ++ [CacheOp.setOp k v])).cache =
            eraseKey (runCache cap ops).cache k ++ [(k, v)] := by
          rw [hstep]
          have : applyCacheOp (runCache cap ops) (.setOp k v) =
              ⟨eraseKey (runCache cap ops).cache k ++ [(k, v)],
                (runCache cap ops).capacity⟩ := by
            rw [applyCacheOp, LRUCache.set, if_pos hhk]
          rw [this]
        refine inv_insert_step ih
          (eraseKey_sublist (runCache cap ops).cache k)
          (mem_eraseKey_ne (runCache cap ops).cache k) ?_ hc hself hother
        have h1 := length_eraseKey_lt _ _ hhk
        have h2 := ih.2.1
        omega
      · have hhk' : hasKey (runCache cap ops).cache k = false := by
          cases h : hasKey (runCache cap ops).cache k with
          | false => rfl
          | true => exact absurd h hhk
        have hcapeq : (runCache cap ops).capacity = cap :=
          capacity_runCache cap ops
        by_cases hfull : cap ≤ (runCache cap ops).cache.length
        · have hc : (runCache cap (ops ++ [CacheOp.setOp k v])).cache =
              (runCache cap ops).cache.drop 1 ++ [(k, v)] := by
            rw [hstep]
            have : applyCacheOp (runCache cap ops) (.setOp k v) =
                ⟨(runCache cap ops).cache.drop 1 ++ [(k, v)],
                  (runCache cap ops).capacity⟩ := by
              rw [applyCacheOp, LRUCache.set, if_neg (by simp [hhk']),
                if_pos (by rw [hcapeq]; exact hfull)]
            rw [this]
          refine inv_insert_step ih (List.drop_sublist 1 _) ?_ ?_ hc
            hself hother
          · intro e he
            exact hasKey_false_ne _ _ hhk' e
              ((List.drop_sublist 1 _).subset he)
          · have h2 := ih.2.1
            have h3 : (runCache cap ops).cache.length = cap := by omega
            rw [List.length_drop]
            omega
        · have hc : (runCache cap (ops ++ [CacheOp.setOp k v])).cache =
              (runCache cap ops).cache ++ [(k, v)] := by
            rw [hstep]
            have : applyCacheOp (runCache cap ops) (.setOp k v) =
                ⟨(runCache cap ops).cache ++ [(k, v)],
                  (runCache cap ops).capacity⟩ := by
              rw [applyCacheOp, LRUCache.set, if_neg (by simp [hhk']),
                if_neg (by rw [hcapeq]; exact hfull)]
            rw [this]
          refine inv_insert_step ih (List.Sublist.refl _)
            (hasKey_false_ne _ _ hhk') ?_ hc hself hother
          omega

theorem pairwise_take_one_drop {α : Type} {R : α → α → Prop}
    {l : List α} (h : List.Pairwise R l) :
    ∀ a ∈ l.take 1, ∀ b ∈ l.drop 1, R a b := by
  cases l with
  | nil =>
    intro a ha
    simp at ha
  | cons x t =>
    intro a ha b hb
    have hax : a = x := by simpa using ha
    have hbt : b ∈ t := by simpa using hb
    rw [hax]
    exact (List.pairwise_cons.mp h).1 b hbt

/-- (C9) For every capacity at least 1 and every sequence of get, set and
delete operations, the LRU cache holds at most `capacity` entries, its
keys are unique and listed in strictly increasing order of last use
(where both a set and a cache-hitting get refresh an entry's recency,
recorded by `lastUse`); consequently, when a set on a full cache inserts
a new key, the evicted entry (the head of the list) is the least
recently used one: its last use is earlier than that of every entry
kept. -/
theorem lru_cache_spec {K V : Type} [DecidableEq K] (cap : Nat)
    (hcap : 1 ≤ cap) (ops : List (CacheOp K V)) :
    (runCache cap ops).size ≤ cap ∧
    ((runCache cap ops).cache.map Prod.fst).Nodup ∧
    List.Pairwise (fun a b => lastUse cap ops a < lastUse cap ops b)
      ((runCache cap ops).cache.map Prod.fst) ∧
    (∀ k v, hasKey (runCache cap ops).cache k = false →
      cap ≤ (runCache cap ops).size →
      ((runCache cap ops).set k v).cache =
        (runCache cap ops).cache.drop 1 ++ [(k, v)] ∧
      ∀ e1 ∈ (runCache cap ops).cache.take 1,
        ∀ e2 ∈ (runCache cap ops).cache.drop 1,
          lastUse cap ops e1.1 < lastUse cap ops e2.1) := by
  have hInv := cacheInv_runCache cap hcap ops
  refine ⟨hInv.2.1, hInv.1, hInv.2.2.2, ?_⟩
  intro k v hk hfull
  constructor
  · rw [LRUCache.set, if_neg (by simp [hk]),
      if_pos (by rw [capacity_runCache cap ops]; exact hfull)]
  · intro e1 h1 e2 h2
    refine pairwise_take_one_drop hInv.2.2.2 e1.1 ?_ e2.1 ?_
    · rw [← List.map_take]
      exact List.mem_map_of_mem _ h1
    · rw [← List.map_drop]
      exact List.mem_map_of_mem _ h2

/-- A concrete three-operation history on a capacity-2 cache. -/
def lruExOps : List (CacheOp ℕ ℕ) :=
  [CacheOp.setOp 1 10, CacheOp.setOp 2 20, CacheOp.getOp 1]

theorem lru_cache_spec_witness :
    1 ≤ 2 ∧
    ((runCache 2 lruExOps).size ≤ 2 ∧
    ((runCache 2 lruExOps).cache.map Prod.fst).Nodup ∧
    List.Pairwise (fun a b => lastUse 2 lruExOps a < lastUse 2 lruExOps b)
      ((runCache 2 lruExOps).cache.map Prod.fst) ∧
    (∀ k v, hasKey (runCache 2 lruExOps).cache k = false →
      2 ≤ (runCache 2 lruExOps).size →
      ((runCache 2 lruExOps).set k v).cache =
        (runCache 2 lruExOps).cache.drop 1 ++ [(k, v)] ∧
      ∀ e1 ∈ (runCache 2 lruExOps).cache.take 1,
        ∀ e2 ∈ (runCache 2 lruExOps).cache.drop 1,
          lastUse 2 lruExOps e1.1 < lastUse 2 lruExOps e2.1)) :=
  ⟨by decide, lru_cache_spec 2 (by decide) lruExOps⟩

/-- A concrete two-operation history on a two-element union-find. -/
def ufExOps : List UFOp := [UFOp.unionOp 0 1, UFOp.findOp 0]

theorem unionFind_runUFOps_spec_witness :
    (∀ op ∈ ufExOps, ∀ a ∈ UFOp.args op, a < 2) ∧
    ((runUFOps 2 ufExOps).size = 2 ∧
    UnionFind.Inv (runUFOps 2 ufExOps) ∧
    (∀ x, x < 2 →
      (runUFOps 2 ufExOps).isRoot ((runUFOps 2 ufExOps).rootOf x)) ∧
    (∀ x, x < 2 →
      ((runUFOps 2 ufExOps).find x).2 = (runUFOps 2 ufExOps).rootOf x ∧
      (runUFOps 2 ufExOps).isRoot (((runUFOps 2 ufExOps).find x).2) ∧
      (∀ fuel, (runUFOps 2 ufExOps).size ≤ fuel →
        UnionFind.findAux fuel (runUFOps 2 ufExOps) x =
          (runUFOps 2 ufExOps).find x) ∧
      (∀ y, y < 2 →
        (((runUFOps 2 ufExOps).find x).1).rootOf y =
          (runUFOps 2 ufExOps).rootOf y)) ∧
    (∀ x y a b, x < 2 → y < 2 → a < 2 → b < 2 →
      (((runUFOps 2 ufExOps).union x y).rootOf a =
          ((runUFOps 2 ufExOps).union x y).rootOf b ↔
        ((runUFOps 2 ufExOps).rootOf a = (runUFOps 2 ufExOps).rootOf b ∨
          ((runUFOps 2 ufExOps).rootOf a =
              (runUFOps 2 ufExOps).rootOf x ∧
            (runUFOps 2 ufExOps).rootOf b =
              (runUFOps 2 ufExOps).rootOf y) ∨
          ((runUFOps 2 ufExOps).rootOf a =
              (runUFOps 2 ufExOps).rootOf y ∧
            (runUFOps 2 ufExOps).rootOf b =
              (runUFOps 2 ufExOps).rootOf x))))) :=
  ⟨by decide, unionFind_runUFOps_spec 2 ufExOps (by decide)⟩

end EventBackend
